import Mathlib

/-!
Verification development for the PNA key-value store (pointer-indexed log
engine).  The definitions below are a shallow embedding of the Rust sources:

* `src/log_file/log_item.rs` — the record type `LogItem` and the codec
  `LogEncoder.encode` / `LogEncoder.decode`.  The codec delegates to the
  external `serde_json` crate; the JSON layer here models serde_json's
  documented behaviour for this struct: field order `cmd, key, value` on
  encode, short escapes plus `\u00XX` for control characters, strict JSON
  on decode with whitespace tolerated around the value, unknown fields
  ignored, duplicate known fields rejected, `value` defaulting to `none`
  when missing (the `#[serde(default)]` attribute) and accepting `null`.
* `src/log_file/ptr_log_file.rs` — segments (`PtrLogFileInner`) with their
  in-memory index, `build_index` replay, and the `set/get/remove/scan/len`
  operations.  A file is modelled as its character sequence plus the
  stream position of the single read+append handle; offsets count
  characters where the source counts bytes, which preserves every
  internal-consistency property since writer and replayer use the same
  unit.  Opening with `.append(true)` leaves the handle's stream position
  at 0 on Linux (O_APPEND moves writes, not the initial offset), which the
  model reflects.
* `src/kv_store.rs` — the engine (`KvStore` over `LogFiles`): directory
  open, routing of `get`, `set` with the 1 MiB compaction trigger, and
  `remove`.  A directory is a list of `(id, contents)` pairs standing for
  the files `data_<id>`; a missing directory is `none`.
* `src/compactor.rs` — `SimpleCompactor.compact`: rotate the mutable,
  scan the just-demoted segment, rewrite it through the `.compact`
  sibling path, and rebuild it by replay.
-/

namespace PNA

/-! ## Characters and small helpers -/

/-- The character `{` (written via its code point). -/
abbrev lbrace : Char := Char.ofNat 123

/-- The character `}` (written via its code point). -/
abbrev rbrace : Char := Char.ofNat 125

/-- The double-quote character. -/
abbrev quoteC : Char := '"'

/-- The backslash character. -/
abbrev bslash : Char := '\\'

/-- JSON insignificant whitespace. -/
def isWsC (c : Char) : Bool := c = ' ' || c = '\t' || c = '\n' || c = '\r'

/-- Drop leading JSON whitespace. -/
def skipWs : List Char → List Char
  | [] => []
  | c :: cs => if isWsC c then skipWs cs else c :: cs

/-- Decimal digit test. -/
def isDigitC (c : Char) : Bool := '0' ≤ c && c ≤ '9'

/-- Value of one hexadecimal digit. -/
def hexVal (c : Char) : Option Nat :=
  if 48 ≤ c.toNat && c.toNat ≤ 57 then some (c.toNat - 48)
  else if 97 ≤ c.toNat && c.toNat ≤ 102 then some (c.toNat - 87)
  else if 65 ≤ c.toNat && c.toNat ≤ 70 then some (c.toNat - 55)
  else none

/-- Value of four hexadecimal digits. -/
def hex4 (a b c d : Char) : Option Nat := do
  let va ← hexVal a
  let vb ← hexVal b
  let vc ← hexVal c
  let vd ← hexVal d
  pure (((va * 16 + vb) * 16 + vc) * 16 + vd)

/-- Lowercase hexadecimal digit for a value below 16. -/
def hexDigitC (n : Nat) : Char :=
  if n < 10 then Char.ofNat (48 + n) else Char.ofNat (87 + n)

/-! ## The record type (`LogItem`) -/

/-- One log record: `cmd`, `key`, optional `value` — `log_item.rs`. -/
structure LogItem where
  cmd : String
  key : String
  value : Option String
deriving DecidableEq, Repr

/-- Decode failure, standing for `log_item::Error::DecodeLog` (the wrapped
`serde_json::Error` message is abstracted away). -/
inductive DecodeErr where
  | fail
deriving DecidableEq, Repr

/-! ## Encoding (serde_json serialization of `LogItem`) -/

/-- Escape one character the way serde_json's string serializer does:
`"` and `\` get a backslash, the control characters `\b \t \n \f \r` get
their short escapes, other control characters become `\u00XX`, and
everything else is emitted literally. -/
def escChar (c : Char) : List Char :=
  if c = quoteC then [bslash, quoteC]
  else if c = bslash then [bslash, bslash]
  else if 32 ≤ c.toNat then [c]
  else if c.toNat = 8 then [bslash, 'b']
  else if c.toNat = 9 then [bslash, 't']
  else if c.toNat = 10 then [bslash, 'n']
  else if c.toNat = 12 then [bslash, 'f']
  else if c.toNat = 13 then [bslash, 'r']
  else [bslash, 'u', '0', '0', hexDigitC (c.toNat / 16), hexDigitC (c.toNat % 16)]

/-- Escape a character sequence. -/
def escList : List Char → List Char
  | [] => []
  | c :: cs => escChar c ++ escList cs

/-- A JSON string literal: quote, escaped contents, quote. -/
def jstrL (l : List Char) : List Char := quoteC :: (escList l ++ [quoteC])

/-- The serialized `value` field: a string or `null`. -/
def encValue : Option String → List Char
  | none => ['n', 'u', 'l', 'l']
  | some v => jstrL v.data

/-- Characters of `LogEncoder::encode item`: serde_json writes the fields
in declaration order `cmd`, `key`, `value` with no interior whitespace. -/
def encodeChars (it : LogItem) : List Char :=
  [lbrace, quoteC, 'c', 'm', 'd', quoteC, ':'] ++ jstrL it.cmd.data
    ++ [',', quoteC, 'k', 'e', 'y', quoteC, ':'] ++ jstrL it.key.data
    ++ [',', quoteC, 'v', 'a', 'l', 'u', 'e', quoteC, ':'] ++ encValue it.value
    ++ [rbrace]

/-- `LogEncoder::encode` (total: serialization of this struct cannot fail,
so the `Result` in the source is always `Ok`). -/
def encodeStr (it : LogItem) : String := String.mk (encodeChars it)

/-! ## The JSON value grammar (decode side of serde_json) -/

/-- A parsed JSON value.  Numbers keep their source text: the engine never
inspects a number, they can only appear inside ignored unknown fields. -/
inductive Json where
  | null
  | bool (b : Bool)
  | num (s : List Char)
  | str (s : List Char)
  | arr (elems : List Json)
  | obj (members : List (List Char × Json))

/-- Decode one escape sequence after a backslash: the decoded character
and the number of input characters consumed.  Escapes follow RFC 8259,
and `\uXXXX` surrogate pairs are combined (lone surrogates are
rejected), as in serde_json. -/
def parseEscape : List Char → Option (Char × Nat)
  | '"' :: _ => some (quoteC, 1)
  | '\\' :: _ => some (bslash, 1)
  | '/' :: _ => some ('/', 1)
  | 'b' :: _ => some (Char.ofNat 8, 1)
  | 'f' :: _ => some (Char.ofNat 12, 1)
  | 'n' :: _ => some ('\n', 1)
  | 'r' :: _ => some ('\r', 1)
  | 't' :: _ => some ('\t', 1)
  | 'u' :: a :: b :: c1 :: d :: rest3 =>
    (match hex4 a b c1 d with
     | none => none
     | some n =>
       if n < 0xD800 || 0xDFFF < n then some (Char.ofNat n, 5)
       else if n ≤ 0xDBFF then
         -- high surrogate: a low surrogate escape must follow
         match rest3 with
         | '\\' :: 'u' :: a2 :: b2 :: c2 :: d2 :: _ =>
           (match hex4 a2 b2 c2 d2 with
            | none => none
            | some m =>
              if 0xDC00 ≤ m && m ≤ 0xDFFF then
                some (Char.ofNat (0x10000 + (n - 0xD800) * 0x400 + (m - 0xDC00)), 11)
              else none)
         | _ => none
       else none)
  | _ => none

/-- Parse the rest of a JSON string after the opening quote.  Returns the
decoded contents and the remaining input.  Unescaped control characters
are rejected, as in serde_json. -/
def parseJStr : List Char → Option (List Char × List Char)
  | [] => none
  | c :: rest =>
    if c = quoteC then some ([], rest)
    else if c = bslash then
      match parseEscape rest with
      | none => none
      | some (ch, n) => (parseJStr (rest.drop n)).map fun p => (ch :: p.1, p.2)
    else if c.toNat < 32 then none
    else (parseJStr rest).map fun p => (c :: p.1, p.2)
termination_by cs => cs.length
decreasing_by
  all_goals
    simp only [List.length_cons, List.length_drop]
    omega

/-- Take a maximal run of decimal digits. -/
def takeDigits : List Char → List Char × List Char
  | [] => ([], [])
  | c :: cs =>
    if isDigitC c then
      let p := takeDigits cs
      (c :: p.1, p.2)
    else ([], c :: cs)

/-- Parse a JSON number (sign, integer part, optional fraction and
exponent); the engine never looks at the value, only at whether the
surrounding document parses. -/
def parseJNum (cs : List Char) : Option (Json × List Char) :=
  let p1 := match cs with
            | c :: r => if c = '-' then (([c] : List Char), r) else ([], cs)
            | [] => ([], cs)
  let intp := takeDigits p1.2
  if intp.1.isEmpty then none
  else
    let p2 := match intp.2 with
              | c :: r =>
                if c = '.' then
                  let fr := takeDigits r
                  if fr.1.isEmpty then none else some (c :: fr.1, fr.2)
                else some ([], intp.2)
              | [] => some ([], intp.2)
    match p2 with
    | none => none
    | some (fracCs, rest2) =>
      let p3 := match rest2 with
                | c :: r =>
                  if c = 'e' || c = 'E' then
                    let se := match r with
                              | s :: r2 => if s = '+' || s = '-' then ([s], r2) else ([], r)
                              | [] => ([], r)
                    let ex := takeDigits se.2
                    if ex.1.isEmpty then none else some (c :: se.1 ++ ex.1, ex.2)
                  else some ([], rest2)
                | [] => some ([], rest2)
      match p3 with
      | none => none
      | some (expCs, rest3) =>
        some (.num (p1.1 ++ intp.1 ++ fracCs ++ expCs), rest3)

/-- Parse the keyword `null` after its leading `n`. -/
def parseNull : List Char → Option (Json × List Char)
  | 'u' :: 'l' :: 'l' :: r => some (.null, r)
  | _ => none

/-- Parse the keyword `true` after its leading `t`. -/
def parseTrue : List Char → Option (Json × List Char)
  | 'r' :: 'u' :: 'e' :: r => some (.bool true, r)
  | _ => none

/-- Parse the keyword `false` after its leading `f`. -/
def parseFalse : List Char → Option (Json × List Char)
  | 'a' :: 'l' :: 's' :: 'e' :: r => some (.bool false, r)
  | _ => none

mutual

/-- Parse one JSON value (no leading whitespace expected).  `fuel` bounds
the nesting depth; callers supply more fuel than the input length, so the
bound never bites. -/
def parseVal : Nat → List Char → Option (Json × List Char)
  | 0, _ => none
  | _ + 1, [] => none
  | fuel + 1, c :: rest =>
    if c = quoteC then (parseJStr rest).map fun p => (Json.str p.1, p.2)
    else if c = lbrace then parseObjBody fuel (skipWs rest)
    else if c = '[' then parseArrBody fuel (skipWs rest)
    else if c = 'n' then parseNull rest
    else if c = 't' then parseTrue rest
    else if c = 'f' then parseFalse rest
    else parseJNum (c :: rest)

/-- Continue an object after `{` and whitespace: empty object or members. -/
def parseObjBody : Nat → List Char → Option (Json × List Char)
  | _, [] => none
  | fuel, d :: r1 =>
    if d = rbrace then some (.obj [], r1)
    else (parseMembers fuel (d :: r1)).map fun p => (Json.obj p.1, p.2)

/-- Continue an array after `[` and whitespace: empty array or elements. -/
def parseArrBody : Nat → List Char → Option (Json × List Char)
  | _, [] => none
  | fuel, d :: r1 =>
    if d = ']' then some (.arr [], r1)
    else (parseElems fuel (d :: r1)).map fun p => (Json.arr p.1, p.2)

/-- Parse the members of a JSON object (current position on the first
member's opening quote); a trailing comma is a parse error. -/
def parseMembers : Nat → List Char → Option (List (List Char × Json) × List Char)
  | 0, _ => none
  | _ + 1, [] => none
  | fuel + 1, c :: rest =>
    if c = quoteC then parseMemberKey fuel (parseJStr rest)
    else none

/-- Continue a member after its key string parsed (or failed). -/
def parseMemberKey : Nat → Option (List Char × List Char) → Option (List (List Char × Json) × List Char)
  | _, none => none
  | fuel, some (kcs, r1) => parseMemberColon fuel kcs (skipWs r1)

/-- Expect the `:` between a member's key and value. -/
def parseMemberColon : Nat → List Char → List Char → Option (List (List Char × Json) × List Char)
  | _, _, [] => none
  | fuel, kcs, c :: r2 =>
    if c = ':' then parseMemberVal fuel kcs (parseVal fuel (skipWs r2))
    else none

/-- Continue a member after its value parsed (or failed). -/
def parseMemberVal : Nat → List Char → Option (Json × List Char) → Option (List (List Char × Json) × List Char)
  | _, _, none => none
  | fuel, kcs, some (v, r3) => parseMemberSep fuel kcs v (skipWs r3)

/-- After one member: `,` continues the member list, `}` ends it. -/
def parseMemberSep : Nat → List Char → Json → List Char → Option (List (List Char × Json) × List Char)
  | _, _, _, [] => none
  | fuel, kcs, v, d :: r4 =>
    if d = ',' then (parseMembers fuel (skipWs r4)).map fun p => ((kcs, v) :: p.1, p.2)
    else if d = rbrace then some ([(kcs, v)], r4)
    else none

/-- Parse the elements of a JSON array; a trailing comma is a parse
error. -/
def parseElems : Nat → List Char → Option (List Json × List Char)
  | 0, _ => none
  | fuel + 1, cs => parseElemVal fuel (parseVal fuel cs)

/-- Continue an element list after one element parsed (or failed). -/
def parseElemVal : Nat → Option (Json × List Char) → Option (List Json × List Char)
  | _, none => none
  | fuel, some (v, r1) => parseElemSep fuel v (skipWs r1)

/-- After one element: `,` continues the element list, `]` ends it. -/
def parseElemSep : Nat → Json → List Char → Option (List Json × List Char)
  | _, _, [] => none
  | fuel, v, d :: r2 =>
    if d = ',' then (parseElems fuel (skipWs r2)).map fun p => (v :: p.1, p.2)
    else if d = ']' then some ([v], r2)
    else none

end

/-! ## Deserializing a `LogItem` from a JSON value -/

/-- Field-collection state of serde's derived `Deserialize` visitor:
recorded `cmd`, `key` and `value` fields (the flag distinguishes a
`value` seen as `null` from a missing `value`). -/
structure FieldsSt where
  cmd : Option String
  key : Option String
  value : Option String
  valueSeen : Bool
deriving DecidableEq, Repr

/-- Fold the object members in encounter order, as the derived visitor
does: known fields must be of the right type and must not repeat;
unknown fields are ignored. -/
def collectFields : List (List Char × Json) → FieldsSt → Except DecodeErr FieldsSt
  | [], st => .ok st
  | (k, v) :: rest, st =>
    if k = ['c', 'm', 'd'] then
      match st.cmd, v with
      | none, .str s => collectFields rest { st with cmd := some (String.mk s) }
      | _, _ => .error .fail
    else if k = ['k', 'e', 'y'] then
      match st.key, v with
      | none, .str s => collectFields rest { st with key := some (String.mk s) }
      | _, _ => .error .fail
    else if k = ['v', 'a', 'l', 'u', 'e'] then
      if st.valueSeen then .error .fail
      else
        match v with
        | .str s => collectFields rest { st with value := some (String.mk s), valueSeen := true }
        | .null => collectFields rest { st with value := none, valueSeen := true }
        | _ => .error .fail
    else collectFields rest st

/-- Build a `LogItem` from a parsed JSON value: it must be an object,
`cmd` and `key` are required strings, `value` defaults to `none`. -/
def itemFromJson : Json → Except DecodeErr LogItem
  | .obj members =>
    match collectFields members ⟨none, none, none, false⟩ with
    | .error e => .error e
    | .ok st =>
      match st.cmd, st.key with
      | some c, some k => .ok ⟨c, k, st.value⟩
      | _, _ => .error .fail
  | _ => .error .fail

/-- Finish a decode: the parse must have succeeded and only whitespace
may remain after the value. -/
def decodeFinish : Option (Json × List Char) → Except DecodeErr LogItem
  | none => .error .fail
  | some (j, rest) =>
    if skipWs rest = [] then itemFromJson j else .error .fail

/-- `LogEncoder::decode` on a character sequence: skip surrounding
whitespace, parse exactly one JSON value, deserialize the struct. -/
def decodeChars (cs : List Char) : Except DecodeErr LogItem :=
  decodeFinish (parseVal (cs.length + 1) (skipWs cs))

/-- `LogEncoder::decode` on a string. -/
def decodeStr (s : String) : Except DecodeErr LogItem := decodeChars s.data

/-! ## Segment model (`ptr_log_file.rs`) -/

/-- Errors of `ptr_log_file::Error`.  The IO-failure variants (`ReadFile`,
`OpenFile`, `SeekFile`, `QueryMetaData`, `RecordLog` with an IO source)
cannot occur in the model, which has no failing IO; the remaining
variants are carried with the payloads the proofs need.  The engine and
compactor layers in the source only wrap these errors in formatted
strings, so one error type serves every layer here. -/
inductive SegError where
  | invalidPath
  | decodeLog (e : DecodeErr)
  | removeNotExistKey (key : String)
  | unknownCmd (item : LogItem)
  | unexpected (dscr : String)
  | emptyFile
deriving DecidableEq, Repr

/-- An index entry: offset of the key's most recent record, tagged live
or tombstoned. -/
inductive IndexEntry where
  | Exist (offset : Nat)
  | Removed (offset : Nat)
deriving DecidableEq, Repr

/-- The offset carried by an entry. -/
def entryOff : IndexEntry → Nat
  | .Exist o => o
  | .Removed o => o

/-- The in-memory index.  The source uses a `HashMap`; the model is an
association list with distinct keys, iterated in list order where the
source iterates in unspecified hash order (`scan` is the only iteration,
and nothing proved depends on the order). -/
abbrev Index := List (String × IndexEntry)

/-- `HashMap::insert`: replace the binding in place, or add it. -/
def idxInsert (k : String) (e : IndexEntry) : Index → Index
  | [] => [(k, e)]
  | (k', e') :: rest => if k' = k then (k, e) :: rest else (k', e') :: idxInsert k e rest

/-- `HashMap::get`. -/
def idxLookup : Index → String → Option IndexEntry
  | [], _ => none
  | (k', e') :: rest, k => if k' = k then some e' else idxLookup rest k

/-- `BufRead::read_line`: split off the first line, retaining its
terminating newline; without a newline the whole input is one line. -/
def readLine : List Char → List Char × List Char
  | [] => ([], [])
  | c :: rest =>
    if c = '\n' then ([c], rest)
    else
      let p := readLine rest
      (c :: p.1, p.2)

/-- The line beginning at offset `o` of the file contents. -/
def lineAt (data : List Char) (o : Nat) : List Char := (readLine (data.drop o)).1

/-- Every line of the file is newline-terminated (equivalently: the file
is empty or its last character is a newline).  Files written through the
engine always satisfy this, because every record is appended with a
trailing newline and encoded records contain no raw newline. -/
def endsNl (l : List Char) : Bool :=
  match l.getLast? with
  | none => true
  | some c => c = '\n'

/-- `build_index` replay loop: record the cursor, read one line, decode,
route by `cmd` (`set` → `Exist`, `rm` → `Removed`, else fail the open),
advance the cursor by the line length (the source re-reads it with
`stream_position`). -/
def buildIndexAux (cs : List Char) (cursor : Nat) (idx : Index) : Except SegError Index :=
  if hcs : cs = [] then .ok idx
  else
    match decodeChars (readLine cs).1 with
    | .error e => .error (.decodeLog e)
    | .ok item =>
      if item.cmd = "set" then
        buildIndexAux (readLine cs).2 (cursor + (readLine cs).1.length)
          (idxInsert item.key (.Exist cursor) idx)
      else if item.cmd = "rm" then
        buildIndexAux (readLine cs).2 (cursor + (readLine cs).1.length)
          (idxInsert item.key (.Removed cursor) idx)
      else .error (.unknownCmd item)
termination_by cs.length
decreasing_by
  all_goals
    have h : ∀ (c : Char) (cs : List Char),
        (readLine (c :: cs)).2.length < (c :: cs).length := by
      intro c cs
      induction cs generalizing c with
      | nil =>
        simp only [readLine]
        split <;> simp
      | cons d rest ih =>
        simp only [readLine]
        split
        · simp
        · simpa using Nat.lt_trans (ih d) (by simp)
    rcases cs with _ | ⟨c, cs'⟩
    · exact absurd rfl hcs
    · have h2 := h c cs'
      simp only [List.length_cons] at h2
      simpa using h2

/-- `build_index`: full replay of a file from offset 0. -/
def build_index (data : List Char) : Except SegError Index := buildIndexAux data 0 []

/-- The state of the one open read+append file handle: the file contents
and the handle's stream position. -/
structure FileSt where
  data : List Char
  pos : Nat
deriving DecidableEq, Repr

/-- A segment (`PtrLogFileInner`): the index, the optional attached file
(the `Option<File>` of the source), and the numeric identifier standing
for the path `data_<id>`. -/
structure Seg where
  id : Nat
  index : Index
  file : Option FileSt
deriving DecidableEq, Repr

/-- Default read-ahead of `BufReader::new` (bytes).  A `get` or `scan`
wraps the handle in a fresh `BufReader`, whose fill of the internal
buffer advances the underlying handle this far past the seek target (capped
at end of file); the buffer is discarded when the reader is dropped. -/
def bufCap : Nat := 8192

/-- Success continuation of `PtrLogFileInner::new`: with the index
rebuilt, open the file in read+append mode.  On Linux the append-mode
handle's initial stream position is 0 (O_APPEND affects writes, not the
offset at open), which is what the model records. -/
def segOfIndex (i : Nat) (data : List Char) : Except SegError Index → Except SegError Seg
  | .error e => .error e
  | .ok idx => .ok ⟨i, idx, some ⟨data, 0⟩⟩

/-- `PtrLogFileInner::new`: require the path to exist, replay the file to
build the index, then attach the handle. -/
def Seg.new (pathExists : Bool) (id : Nat) (data : List Char) : Except SegError Seg :=
  if !pathExists then .error .invalidPath
  else segOfIndex id data (build_index data)

/-- One encoded record line as `write_disk` produces it: the encoding
plus a trailing newline, written in a single append. -/
def lineOf (it : LogItem) : List Char := encodeChars it ++ ['\n']

/-- `PtrLogFileInner::set`: capture the handle's stream position, append
the encoded `set` record (an O_APPEND write goes to end of file and
leaves the position at the end of the written data), and point the index
at the captured position. -/
def Seg.set (s : Seg) (k v : String) : Except SegError Seg :=
  match s.file with
  | none => .error .emptyFile
  | some f =>
    let new_cursor := f.pos
    let item : LogItem := ⟨"set", k, some v⟩
    let data' := f.data ++ lineOf item
    .ok { s with index := idxInsert item.key (.Exist new_cursor) s.index,
                 file := some ⟨data', data'.length⟩ }

/-- `PtrLogFileInner::get`, with the state of the handle after the call:
look up the key (`Removed` or absent answer `none` without touching the
file); for `Exist c` seek to `c`, read one line through a fresh
`BufReader` (advancing the underlying handle), decode it and require a
present value. -/
def Seg.get (s : Seg) (k : String) : Except SegError (Option String) × Seg :=
  match s.file with
  | none => (.error .emptyFile, s)
  | some f =>
    match idxLookup s.index k with
    | none => (.ok none, s)
    | some (.Removed _) => (.ok none, s)
    | some (.Exist c) =>
      let line := lineAt f.data c
      let pos' := if f.data.length ≤ c then c else min f.data.length (c + max bufCap line.length)
      let s' := { s with file := some ⟨f.data, pos'⟩ }
      if line.length = 0 then (.error (.unexpected "read line and get eof"), s')
      else
        match decodeChars line with
        | .error e => (.error (.decodeLog e), s')
        | .ok item =>
          match item.value with
          | none => (.error (.unexpected "invalid log in file"), s')
          | some v => (.ok (some v), s')

/-- The answer of `PtrLogFileInner::get`; the handle movement cannot
influence any later answer, so claims about answers use this
projection. -/
def Seg.getAns (s : Seg) (k : String) : Except SegError (Option String) := (Seg.get s k).1

/-- `PtrLogFileInner::remove`: only when the index maps the key to
`Exist` does it capture the position, append the tombstone and flip the
entry to `Removed`; otherwise `RemoveNotExistKey`. -/
def Seg.remove (s : Seg) (k : String) : Except SegError Seg :=
  match s.file with
  | none => .error .emptyFile
  | some f =>
    let item : LogItem := ⟨"rm", k, none⟩
    match idxLookup s.index k with
    | some (.Exist _) =>
      let new_cursor := f.pos
      let data' := f.data ++ lineOf item
      .ok { s with index := idxInsert item.key (.Removed new_cursor) s.index,
                   file := some ⟨data', data'.length⟩ }
    | _ => .error (.removeNotExistKey item.key)

/-- The `scan` loop over the index entries: seek to each entry's offset,
read one line (err on end of file), collect the lines; the final handle
position is that of the last buffered read. -/
def scanCons (line : List Char) :
    Except SegError (List (List Char)) × Nat → Except SegError (List (List Char)) × Nat
  | (.ok lines, pfin) => (.ok (line :: lines), pfin)
  | other => other

def scanGo (data : List Char) : Index → Nat → Except SegError (List (List Char)) × Nat
  | [], pos => (.ok [], pos)
  | (_, e) :: rest, _pos =>
    let o := entryOff e
    let line := lineAt data o
    let pos' := if data.length ≤ o then o else min data.length (o + max bufCap line.length)
    if line.length = 0 then (.error (.unexpected "scan file and get eof"), pos')
    else scanCons line (scanGo data rest pos')

/-- `PtrLogFileInner::scan`: the raw encoded lines at the currently
indexed offsets, in index iteration order, plus the handle state after
the scan. -/
def Seg.scan (s : Seg) : Except SegError (List (List Char)) × Seg :=
  match s.file with
  | none => (.error .emptyFile, s)
  | some f =>
    match scanGo f.data s.index f.pos with
    | (res, pfin) => (res, { s with file := some ⟨f.data, pfin⟩ })

/-- `PtrLogFileInner::len`: the file's metadata length (independent of
the handle position). -/
def Seg.len (s : Seg) : Except SegError Nat :=
  match s.file with
  | none => .error .emptyFile
  | some f => .ok f.data.length

/-- `LogFile::contains_key`: the index has the key, as `Exist` or
`Removed`. -/
def contains_key (s : Seg) (k : String) : Bool := (idxLookup s.index k).isSome

/-! ## Engine model (`kv_store.rs`) -/

/-- The shared segment set (`LogFiles`): the mutable segment, the
immutables (ascending by identifier: oldest first), and the `next_id`
counter.  The directory path is implicit — paths are the `id` fields. -/
structure LogFiles where
  mutSeg : Seg
  immutables : List Seg
  next_id : Nat
deriving DecidableEq, Repr

/-- A directory on disk: the files `data_<id>` with their contents.  A
nonexistent directory is `none` at the call sites below. -/
abbrev Dir := List (Nat × List Char)

/-- Insert into a list sorted by file identifier. -/
def insertPair (p : Nat × List Char) : List (Nat × List Char) → List (Nat × List Char)
  | [] => [p]
  | q :: rest => if p.1 ≤ q.1 then p :: q :: rest else q :: insertPair p rest

/-- Sort directory entries by identifier (`id_path_pairs.sort_by`). -/
def sortPairs : List (Nat × List Char) → List (Nat × List Char)
  | [] => []
  | p :: rest => insertPair p (sortPairs rest)

/-- `get_file_paths`: `None` for a missing directory, otherwise the
`(id, contents)` pairs sorted by identifier.  (Filename parsing —
`check_and_get_file_id`, which panics on a stray name — is behind the
identifier abstraction and not modelled.) -/
def get_file_paths : Option Dir → Option (List (Nat × List Char))
  | none => none
  | some d => some (sortPairs d)

/-- Result of `KvStore::open`, distinguishing a panic (the source
`unwrap`s the `Option` from `get_file_paths`) from a returned error. -/
inductive OpenRes where
  | panicked
  | failed (e : SegError)
  | opened (st : LogFiles)
deriving DecidableEq, Repr

/-- Build the immutable segments in ascending order, propagating the
first error (`KvStore::open`'s loop over `id_path_pairs`). -/
def buildImmutables : List (Nat × List Char) → Except SegError (List Seg)
  | [] => .ok []
  | p :: rest =>
    match Seg.new true p.1 p.2 with
    | .error e => .error e
    | .ok s =>
      match buildImmutables rest with
      | .error e => .error e
      | .ok ss => .ok (s :: ss)

/-- `KvStore::open`.  A missing directory panics (`get_file_paths(...)
.unwrap()` on `None`).  An empty directory creates an empty `data_0` as
the mutable with `next_id = 1`.  Otherwise the highest identifier is the
mutable and the rest, ascending, are the immutables, with `next_id`
one past the highest identifier. -/
def openStore (fs : Option Dir) : OpenRes :=
  match get_file_paths fs with
  | none => .panicked
  | some pairs =>
    match pairs.getLast? with
    | none =>
      match Seg.new true 0 [] with
      | .error e => .failed e
      | .ok m => .opened ⟨m, [], 1⟩
    | some last =>
      match Seg.new true last.1 last.2 with
      | .error e => .failed e
      | .ok m =>
        match buildImmutables pairs.dropLast with
        | .error e => .failed e
        | .ok imuts => .opened ⟨m, imuts, last.1 + 1⟩

/-- The `find_target` closure of `KvStore::get`: the mutable if it
contains the key, else the first immutable (oldest first) that does. -/
def findTarget (st : LogFiles) (k : String) : Option Seg :=
  if contains_key st.mutSeg k then some st.mutSeg
  else st.immutables.find? (fun s => contains_key s k)

namespace KvStore

/-- The answer of `KvStore::get`: route to the first segment containing
the key; `none` when no segment contains it.  (The source also advances
the chosen segment's handle through its write lock; as with
`Seg.getAns`, that movement affects no answer.) -/
def get (st : LogFiles) (k : String) : Except SegError (Option String) :=
  match findTarget st k with
  | some t => Seg.getAns t k
  | none => .ok none

/-- `KvStore::remove`: remove from the mutable only. -/
def remove (st : LogFiles) (k : String) : Except SegError LogFiles :=
  match Seg.remove st.mutSeg k with
  | .error e => .error e
  | .ok m => .ok { st with mutSeg := m }

end KvStore

/-! ## Compactor model (`compactor.rs`) -/

/-- Phases B and C of `SimpleCompactor::compact` for one segment: `scan`
the live lines, write them in order to the `.compact` sibling, unlink
the original, rename the sibling over it, and rebuild the segment from
the new file by replay.  The rebuilt segment keeps the original path. -/
def compactRewrite (s : Seg) : Except SegError Seg :=
  match (Seg.scan s).1 with
  | .error e => .error e
  | .ok lines => Seg.new true s.id lines.flatten

/-- `SimpleCompactor::compact`: rotate (create an empty `data_<next_id>`
as the new mutable, demote the old mutable to last immutable), then
rewrite the last immutable in place.  The `immutables.last().unwrap()`
cannot panic — the rotation just pushed a segment — so the `none` branch
is an unreachable guard. -/
def compact (st : LogFiles) : Except SegError LogFiles :=
  match Seg.new true st.next_id [] with
  | .error e => .error e
  | .ok newMut =>
    let imuts1 := st.immutables ++ [st.mutSeg]
    match imuts1.getLast? with
    | none => .error (.unexpected "empty immutables")
    | some old =>
      match compactRewrite old with
      | .error e => .error e
      | .ok rebuilt => .ok ⟨newMut, imuts1.dropLast ++ [rebuilt], st.next_id + 1⟩

/-- `KvStore::set`: append to the mutable, then read its length and
compact when it exceeds 1 MiB. -/
def KvStore.set (st : LogFiles) (k v : String) : Except SegError LogFiles :=
  match Seg.set st.mutSeg k v with
  | .error e => .error e
  | .ok m =>
    match Seg.len m with
    | .error e => .error e
    | .ok n =>
      if n > 1024 * 1024 then compact { st with mutSeg := m }
      else .ok { st with mutSeg := m }

/-! ## Closing and reopening; operation sequences -/

/-- The file contents a segment would leave on disk. -/
def segData (s : Seg) : List Char :=
  match s.file with
  | some f => f.data
  | none => []

/-- Close the engine: what remains is the directory of segment files. -/
def closeStore (st : LogFiles) : Dir :=
  (st.immutables ++ [st.mutSeg]).map fun s => (s.id, segData s)

/-- A mutation operation applied through the engine. -/
inductive Op where
  | set (k v : String)
  | rm (k : String)
deriving DecidableEq, Repr

/-- Apply one engine operation; a failed operation (for example removing
an absent key, which mutates nothing) leaves the store as it was. -/
def step (st : LogFiles) : Op → LogFiles
  | .set k v =>
    match KvStore.set st k v with
    | .ok st' => st'
    | .error _ => st
  | .rm k =>
    match KvStore.remove st k with
    | .ok st' => st'
    | .error _ => st

/-- Apply a sequence of engine operations. -/
def runOps (st : LogFiles) (ops : List Op) : LogFiles := ops.foldl step st

/-! ## Specification-side functions and statement helpers -/

/-- A record command recognized by replay. -/
def goodCmd (it : LogItem) : Bool := it.cmd = "set" || it.cmd = "rm"

/-- The index entry replay produces for a record at a given offset. -/
def tagOf (it : LogItem) (o : Nat) : IndexEntry :=
  if it.cmd = "set" then .Exist o else .Removed o

/-- Render a record sequence as file contents: one encoded line each. -/
def renderFile (rs : List LogItem) : List Char := (rs.map lineOf).flatten

/-- Each record paired with the offset at which its line starts. -/
def withOffsets : List LogItem → Nat → List (LogItem × Nat)
  | [], _ => []
  | r :: rs, o => (r, o) :: withOffsets rs (o + (lineOf r).length)

/-- The last record in the file bearing the key, with its offset. -/
def lastFor (rs : List LogItem) (k : String) : Option (LogItem × Nat) :=
  ((withOffsets rs 0).filter fun p => p.1.key = k).getLast?

/-- Replay-style fold over lines paired with the records they decode to:
what `build_index` computes, one abstraction level up. -/
def foldPs : List (List Char × LogItem) → Nat → Index → Index
  | [], _, idx => idx
  | (l, it) :: ps, c, idx => foldPs ps (c + l.length) (idxInsert it.key (tagOf it c) idx)

/-- The last line-record pair bearing the key, with its start offset. -/
def lastPFor : List (List Char × LogItem) → Nat → String → Option (LogItem × Nat)
  | [], _, _ => none
  | (l, it) :: ps, c, k =>
    match lastPFor ps (c + l.length) k with
    | some r => some r
    | none => if it.key = k then some (it, c) else none

/-- The records as line-record pairs. -/
def pairsOf (rs : List LogItem) : List (List Char × LogItem) :=
  rs.map fun r => (lineOf r, r)

/-- The command a record must carry for its entry variant. -/
def entryCmd : IndexEntry → String
  | .Exist _ => "set"
  | .Removed _ => "rm"

/-- The data-model invariant of one index entry (spec §3): the entry's
offset starts a decodable record inside the file whose key is the
indexed key and whose command matches the entry variant. -/
def EntryOk (data : List Char) (k : String) (e : IndexEntry) : Prop :=
  entryOff e < data.length ∧
    ∃ item, decodeChars (lineAt data (entryOff e)) = .ok item ∧
      item.key = k ∧ item.cmd = entryCmd e

/-- The record decoded from the line an entry points at. -/
def decodedItem (data : List Char) (e : IndexEntry) : LogItem :=
  match decodeChars (lineAt data (entryOff e)) with
  | .ok it => it
  | .error _ => ⟨"", "", none⟩

/-- The index binds each key at most once. -/
def keysDistinct (idx : Index) : Prop := idx.Pairwise fun a b => a.1 ≠ b.1

/-- A character sequence without a raw newline. -/
def noNl (l : List Char) : Prop := '\n' ∉ l

/-- A well-formed replayable line paired with the record it decodes to:
newline-terminated with no interior newline, decodable, and carrying a
recognized command. -/
def LineOk (p : List Char × LogItem) : Prop :=
  (∃ l, p.1 = l ++ ['\n'] ∧ noNl l) ∧ decodeChars p.1 = .ok p.2 ∧ goodCmd p.2 = true

/-- The JSON value of the optional `value` field. -/
def jsonValue : Option String → Json
  | none => .null
  | some v => .str v.data

/-- The JSON value `encode` renders for a record. -/
def itemJson (it : LogItem) : Json :=
  .obj [(['c', 'm', 'd'], .str it.cmd.data), (['k', 'e', 'y'], .str it.key.data),
        (['v', 'a', 'l', 'u', 'e'], jsonValue it.value)]

/-- Segments reachable from the public constructor: `PtrLogFileInner::new`
followed by any number of `set`, `remove`, `get` and `scan` calls (the
latter two tracked through the handle state they leave behind). -/
inductive SegReach : Seg → Prop where
  | new : ∀ (ex : Bool) (i : Nat) (d : List Char) (s : Seg), Seg.new ex i d = .ok s → SegReach s
  | set : ∀ s k v s', SegReach s → Seg.set s k v = .ok s' → SegReach s'
  | rm : ∀ s k s', SegReach s → Seg.remove s k = .ok s' → SegReach s'
  | got : ∀ s k, SegReach s → SegReach (Seg.get s k).2
  | scanned : ∀ s, SegReach s → SegReach (Seg.scan s).2

/-! ## Concrete scenario constants used by counterexample and witness
theorems -/

/-- A placeholder segment (never reached in the scenarios below). -/
def dummySeg : Seg := ⟨0, [], none⟩

/-- A placeholder store (never reached in the scenarios below). -/
def dummyFiles : LogFiles := ⟨dummySeg, [], 0⟩

/-- Project an open result, with a default for the unreached cases. -/
def openedOr (d : LogFiles) : OpenRes → LogFiles
  | .opened st => st
  | _ => d

/-- Project a segment result, with a default for the unreached cases. -/
def segOr (d : Seg) : Except SegError Seg → Seg
  | .ok s => s
  | .error _ => d

/-- The record `set a 1`. -/
def itemA : LogItem := ⟨"set", "a", some "1"⟩

/-- The record `set b 2`. -/
def itemB : LogItem := ⟨"set", "b", some "2"⟩

/-- The encoded line of `set a 1`. -/
def lineA : List Char := lineOf itemA

/-- The encoded line of `set b 2`. -/
def lineB : List Char := lineOf itemB

/-- Engine opened on a fresh empty directory. -/
def c1st0 : LogFiles := openedOr dummyFiles (openStore (some []))

/-- After `set a 1` through the engine. -/
def c1st1 : LogFiles := step c1st0 (.set "a" "1")

/-- After closing and reopening the directory. -/
def c1stA : LogFiles := openedOr dummyFiles (openStore (some (closeStore c1st1)))

/-- After `set b 2` through the reopened engine. -/
def c1stB : LogFiles := step c1stA (.set "b" "2")

/-- After closing and reopening once more. -/
def c1stC : LogFiles := openedOr dummyFiles (openStore (some (closeStore c1stB)))

/-- A segment attached (reopened) on a file already holding one record. -/
def c2s0 : Seg := segOr dummySeg (Seg.new true 0 lineA)

/-- That segment after `set b 2`. -/
def c2s1 : Seg := segOr dummySeg (Seg.set c2s0 "b" "2")

/-- Records for the replay witness: two commands on `a`, one on `b`. -/
def c3rs : List LogItem := [⟨"set", "a", some "1"⟩, ⟨"rm", "a", none⟩, ⟨"set", "b", some "2"⟩]

/-- Records holding an unknown command. -/
def c3bad : List LogItem := [⟨"set", "a", some "1"⟩, ⟨"get", "a", none⟩]

/-- Empty mutable segment for the routing witness. -/
def c4segM : Seg := segOr dummySeg (Seg.new true 2 [])

/-- Oldest immutable (holds only `a`). -/
def c4seg0 : Seg := segOr dummySeg (Seg.new true 0 lineA)

/-- Newer immutable (holds only `b`). -/
def c4seg1 : Seg := segOr dummySeg (Seg.new true 1 lineB)

/-- Store with an empty mutable and two immutables. -/
def c4st : LogFiles := ⟨c4segM, [c4seg0, c4seg1], 3⟩

/-- Segment holding one live key for the remove witness. -/
def c5seg : Seg := segOr dummySeg (Seg.new true 0 lineA)

/-- Store around `c5seg` for the engine half of the remove witness. -/
def c5st : LogFiles := ⟨c5seg, [c4seg1], 2⟩

/-- File with two `set` records on the same key. -/
def c6wData : List Char := lineOf ⟨"set", "a", some "1"⟩ ++ lineOf ⟨"set", "a", some "2"⟩

/-- Segment attached to that file. -/
def c6wSeg : Seg := segOr dummySeg (Seg.new true 1 c6wData)

/-- Freshly constructed empty segment for the reachability witness. -/
def c10seg : Seg := segOr dummySeg (Seg.new true 0 [])

/-! # Theorems

First the supporting lemmas about the index, line reading and the
codec; the claim theorems follow at the end. -/

/-! ## Index lemmas -/

theorem idxLookup_idxInsert_self (idx : Index) (k : String) (e : IndexEntry) :
    idxLookup (idxInsert k e idx) k = some e := by
  induction idx with
  | nil => simp [idxInsert, idxLookup]
  | cons p rest ih =>
    obtain ⟨k', e'⟩ := p
    by_cases h : k' = k
    · simp [idxInsert, idxLookup, h]
    · simp [idxInsert, idxLookup, h, ih]

theorem idxLookup_idxInsert_ne (idx : Index) (k k' : String) (e : IndexEntry)
    (h : k' ≠ k) : idxLookup (idxInsert k e idx) k' = idxLookup idx k' := by
  induction idx with
  | nil =>
    simp only [idxInsert, idxLookup]
    rw [if_neg fun hh => h hh.symm]
  | cons p rest ih =>
    obtain ⟨k'', e''⟩ := p
    by_cases h2 : k'' = k
    · subst h2
      simp only [idxInsert, if_pos rfl, idxLookup]
      rw [if_neg fun hh => h hh.symm, if_neg fun hh => h hh.symm]
    · simp only [idxInsert, if_neg h2, idxLookup]
      rw [ih]

theorem mem_idxInsert {p : String × IndexEntry} {k : String} {e : IndexEntry} :
    ∀ {idx : Index}, p ∈ idxInsert k e idx → p = (k, e) ∨ p ∈ idx := by
  intro idx
  induction idx with
  | nil => simp [idxInsert]
  | cons q rest ih =>
    obtain ⟨k', e'⟩ := q
    by_cases h : k' = k
    · simp only [idxInsert, if_pos h, List.mem_cons]
      rintro (rfl | hp)
      · exact Or.inl rfl
      · exact Or.inr (Or.inr hp)
    · simp only [idxInsert, if_neg h, List.mem_cons]
      rintro (rfl | hp)
      · exact Or.inr (Or.inl rfl)
      · rcases ih hp with h1 | h2
        · exact Or.inl h1
        · exact Or.inr (Or.inr h2)

theorem keysDistinct_idxInsert {idx : Index} (k : String) (e : IndexEntry)
    (h : keysDistinct idx) : keysDistinct (idxInsert k e idx) := by
  induction idx with
  | nil => simp [idxInsert, keysDistinct]
  | cons p rest ih =>
    obtain ⟨k', e'⟩ := p
    rw [keysDistinct, List.pairwise_cons] at h
    obtain ⟨hhead, htail⟩ := h
    by_cases hk : k' = k
    · subst hk
      rw [idxInsert, if_pos rfl, keysDistinct, List.pairwise_cons]
      exact ⟨hhead, htail⟩
    · rw [idxInsert, if_neg hk, keysDistinct, List.pairwise_cons]
      refine ⟨?_, ih htail⟩
      intro b hb
      rcases mem_idxInsert hb with rfl | hb2
      · exact hk
      · exact hhead b hb2

/-! ## Line-reading lemmas -/

theorem readLine_append_snd : ∀ cs : List Char, (readLine cs).1 ++ (readLine cs).2 = cs := by
  intro cs
  induction cs with
  | nil => simp [readLine]
  | cons c rest ih =>
    simp only [readLine]
    split
    · simp
    · simpa using ih

theorem readLine_noNl : ∀ l : List Char, noNl l → readLine l = (l, []) := by
  intro l hl
  induction l with
  | nil => simp [readLine]
  | cons c rest ih =>
    have hc : ¬(c = '\n') := fun hh => hl (hh ▸ List.mem_cons_self _ _)
    have hrest : noNl rest := fun hh => hl (List.mem_cons_of_mem _ hh)
    simp [readLine, hc, ih hrest]

theorem readLine_term : ∀ (l r : List Char), noNl l →
    readLine (l ++ '\n' :: r) = (l ++ ['\n'], r) := by
  intro l r hl
  induction l with
  | nil => simp [readLine]
  | cons c rest ih =>
    have hc : ¬(c = '\n') := fun hh => hl (hh ▸ List.mem_cons_self _ _)
    have hrest : noNl rest := fun hh => hl (List.mem_cons_of_mem _ hh)
    simp [readLine, hc, ih hrest]

theorem readLine_fst_ne_nil : ∀ {cs : List Char}, cs ≠ [] → (readLine cs).1 ≠ [] := by
  intro cs h
  match cs with
  | c :: rest =>
    simp only [readLine]
    split <;> simp

theorem getLast?_cons_of_ne {α : Type} {c : α} {rest : List α} (h : rest ≠ []) :
    (c :: rest).getLast? = rest.getLast? := by
  match rest with
  | [] => exact absurd rfl h
  | d :: t => simp

theorem readLine_of_getLast_nl : ∀ xs : List Char, xs ≠ [] → xs.getLast? = some '\n' →
    ∃ l, (readLine xs).1 = l ++ ['\n'] ∧ noNl l := by
  intro xs
  induction xs with
  | nil => intro h; exact absurd rfl h
  | cons c rest ih =>
    intro _ hlast
    by_cases hc : c = '\n'
    · subst hc
      exact ⟨[], by simp [readLine], by simp [noNl]⟩
    · have hrest : rest ≠ [] := by
        rintro rfl
        simp [List.getLast?] at hlast
        exact hc hlast
      have hlast' : rest.getLast? = some '\n' := by
        rwa [getLast?_cons_of_ne hrest] at hlast
      obtain ⟨l, hl1, hl2⟩ := ih hrest hlast'
      refine ⟨c :: l, ?_, ?_⟩
      · simp [readLine, hc, hl1]
      · intro hmem
        rcases List.mem_cons.mp hmem with h1 | h2
        · exact hc h1.symm
        · exact hl2 h2

theorem getLast?_drop_of_lt : ∀ (l : List Char) (o : Nat), o < l.length →
    (l.drop o).getLast? = l.getLast? := by
  intro l
  induction l with
  | nil => simp
  | cons c rest ih =>
    intro o ho
    match o with
    | 0 => simp
    | o' + 1 =>
      have ho' : o' < rest.length := by simpa using ho
      have hne : rest.drop o' ≠ [] := by
        intro hh
        have := congrArg List.length hh
        simp at this
        omega
      have hrne : rest ≠ [] := by
        rintro rfl
        simp at ho'
      rw [List.drop_succ_cons, ih o' ho', getLast?_cons_of_ne hrne]

theorem line_terminated {data : List Char} {o : Nat} (hnl : endsNl data = true)
    (h : o < data.length) : ∃ l, lineAt data o = l ++ ['\n'] ∧ noNl l := by
  have hne : data.drop o ≠ [] := by
    intro hh
    have := congrArg List.length hh
    simp at this
    omega
  have hdata : data ≠ [] := by
    rintro rfl
    simp at h
  have hlast : data.getLast? = some '\n' := by
    rw [endsNl] at hnl
    match hh : data.getLast? with
    | none => exact absurd (List.getLast?_eq_none_iff.mp hh) hdata
    | some c =>
      rw [hh] at hnl
      simp at hnl
      rw [hnl]
  have hlast' : (data.drop o).getLast? = some '\n' := by
    rw [getLast?_drop_of_lt data o h, hlast]
  exact readLine_of_getLast_nl _ hne hlast'

/-! ## String-escape round trip -/

set_option maxHeartbeats 1000000 in
theorem pjs_quote (rest : List Char) : parseJStr ('"' :: rest) = some ([], rest) := by
  rw [parseJStr]
  rw [if_pos (show ('"' : Char) = quoteC from rfl)]

theorem pjs_esc (e : Char) (rest : List Char) (ch : Char) (n : Nat)
    (h : parseEscape (e :: rest) = some (ch, n)) :
    parseJStr ('\\' :: e :: rest)
      = (parseJStr ((e :: rest).drop n)).map fun p => (ch :: p.1, p.2) := by
  rw [parseJStr]
  rw [if_neg (show ¬('\\' : Char) = quoteC by decide),
    if_pos (show ('\\' : Char) = bslash from rfl), h]

theorem pjs_escQ (rest : List Char) :
    parseJStr ('\\' :: '"' :: rest) = (parseJStr rest).map fun p => ('"' :: p.1, p.2) :=
  pjs_esc '"' rest quoteC 1 rfl

theorem pjs_escBs (rest : List Char) :
    parseJStr ('\\' :: '\\' :: rest) = (parseJStr rest).map fun p => ('\\' :: p.1, p.2) :=
  pjs_esc '\\' rest bslash 1 rfl

theorem pjs_escB (rest : List Char) :
    parseJStr ('\\' :: 'b' :: rest)
      = (parseJStr rest).map fun p => (Char.ofNat 8 :: p.1, p.2) :=
  pjs_esc 'b' rest (Char.ofNat 8) 1 rfl

theorem pjs_escF (rest : List Char) :
    parseJStr ('\\' :: 'f' :: rest)
      = (parseJStr rest).map fun p => (Char.ofNat 12 :: p.1, p.2) :=
  pjs_esc 'f' rest (Char.ofNat 12) 1 rfl

theorem pjs_escN (rest : List Char) :
    parseJStr ('\\' :: 'n' :: rest) = (parseJStr rest).map fun p => ('\n' :: p.1, p.2) :=
  pjs_esc 'n' rest '\n' 1 rfl

theorem pjs_escR (rest : List Char) :
    parseJStr ('\\' :: 'r' :: rest) = (parseJStr rest).map fun p => ('\r' :: p.1, p.2) :=
  pjs_esc 'r' rest '\r' 1 rfl

theorem pjs_escT (rest : List Char) :
    parseJStr ('\\' :: 't' :: rest) = (parseJStr rest).map fun p => ('\t' :: p.1, p.2) :=
  pjs_esc 't' rest '\t' 1 rfl

theorem pjs_lit (c : Char) (rest : List Char) (h1 : ¬c = quoteC) (h2 : ¬c = bslash)
    (h3 : ¬c.toNat < 32) :
    parseJStr (c :: rest) = (parseJStr rest).map fun p => (c :: p.1, p.2) := by
  rw [parseJStr]
  rw [if_neg h1, if_neg h2, if_neg h3]

set_option maxHeartbeats 2000000 in
theorem pjs_escU00 (d1 d2 : Char) (rest : List Char) (a b : Nat)
    (h1 : hexVal d1 = some a) (h2 : hexVal d2 = some b) (hn : a * 16 + b < 55296) :
    parseJStr ('\\' :: 'u' :: '0' :: '0' :: d1 :: d2 :: rest)
      = (parseJStr rest).map fun p => (Char.ofNat (a * 16 + b) :: p.1, p.2) := by
  have h0 : hexVal '0' = some 0 := rfl
  have hx : hex4 '0' '0' d1 d2 = some (a * 16 + b) := by
    rw [hex4]
    simp only [h0, h1, h2, Option.bind_eq_bind, Option.some_bind, Option.pure_def]
    congr 1
    omega
  have hesc : parseEscape ('u' :: '0' :: '0' :: d1 :: d2 :: rest)
      = some (Char.ofNat (a * 16 + b), 5) := by
    have hcond : (decide (a * 16 + b < 55296) || decide (57343 < a * 16 + b)) = true := by
      simp only [Bool.or_eq_true, decide_eq_true_eq]
      left
      omega
    rw [parseEscape, hx]
    simp only [hcond, if_true]
  rw [pjs_esc _ _ _ _ hesc]
  rfl

/-! ## Character and hex-digit lemmas -/

theorem char_toNat_ofNat {n : Nat} (h : n.isValidChar) : (Char.ofNat n).toNat = n := by
  simp [Char.ofNat, h, Char.ofNatAux, Char.toNat, UInt32.toNat, BitVec.toNat_ofNatLt]

theorem hexVal_hexDigitC {n : Nat} (h : n < 16) : hexVal (hexDigitC n) = some n := by
  by_cases h10 : n < 10
  · have hv : (48 + n).isValidChar := Or.inl (by omega)
    have ht : (hexDigitC n).toNat = 48 + n := by
      rw [hexDigitC, if_pos h10]
      exact char_toNat_ofNat hv
    rw [hexVal, ht]
    have hc : (48 ≤ 48 + n && 48 + n ≤ 57) = true := by
      simp only [Bool.and_eq_true, decide_eq_true_eq]
      omega
    rw [if_pos hc]
    congr 1
    omega
  · have hv : (87 + n).isValidChar := Or.inl (by omega)
    have ht : (hexDigitC n).toNat = 87 + n := by
      rw [hexDigitC, if_neg h10]
      exact char_toNat_ofNat hv
    rw [hexVal, ht]
    have hc1 : (48 ≤ 87 + n && 87 + n ≤ 57) = false := by
      simp only [Bool.and_eq_false_iff, decide_eq_false_iff_not]
      omega
    have hc2 : (97 ≤ 87 + n && 87 + n ≤ 102) = true := by
      simp only [Bool.and_eq_true, decide_eq_true_eq]
      omega
    rw [if_neg (by simp [hc1]), if_pos hc2]
    congr 1
    omega

theorem parseJStr_escList : ∀ (l rest : List Char),
    parseJStr (escList l ++ '"' :: rest) = some (l, rest) := by
  intro l
  induction l with
  | nil =>
    intro rest
    rw [escList, List.nil_append, pjs_quote]
  | cons c l' ih =>
    intro rest
    rw [escList, List.append_assoc]
    by_cases hq : c = quoteC
    · subst hq
      rw [show escChar quoteC = [bslash, quoteC] from rfl, List.cons_append, List.cons_append,
        List.nil_append, pjs_escQ, ih]
      rfl
    · by_cases hb : c = bslash
      · subst hb
        rw [show escChar bslash = [bslash, bslash] from rfl, List.cons_append, List.cons_append,
          List.nil_append, pjs_escBs, ih]
        rfl
      · by_cases h32 : 32 ≤ c.toNat
        · rw [escChar, if_neg hq, if_neg hb, if_pos h32, List.cons_append, List.nil_append,
            pjs_lit c _ hq hb (by omega), ih]
          rfl
        · by_cases h8 : c.toNat = 8
          · rw [escChar, if_neg hq, if_neg hb, if_neg h32, if_pos h8, List.cons_append,
              List.cons_append, List.nil_append, pjs_escB, ih]
            have hc : Char.ofNat 8 = c := by rw [← h8, Char.ofNat_toNat]
            rw [hc]
            rfl
          · by_cases h9 : c.toNat = 9
            · rw [escChar, if_neg hq, if_neg hb, if_neg h32, if_neg h8, if_pos h9,
                List.cons_append, List.cons_append, List.nil_append, pjs_escT, ih]
              have hc : ('\t' : Char) = c := by
                rw [show ('\t' : Char) = Char.ofNat 9 from rfl, ← h9, Char.ofNat_toNat]
              rw [hc]
              rfl
            · by_cases h10 : c.toNat = 10
              · rw [escChar, if_neg hq, if_neg hb, if_neg h32, if_neg h8, if_neg h9, if_pos h10,
                  List.cons_append, List.cons_append, List.nil_append, pjs_escN, ih]
                have hc : ('\n' : Char) = c := by
                  rw [show ('\n' : Char) = Char.ofNat 10 from rfl, ← h10, Char.ofNat_toNat]
                rw [hc]
                rfl
              · by_cases h12 : c.toNat = 12
                · rw [escChar, if_neg hq, if_neg hb, if_neg h32, if_neg h8, if_neg h9, if_neg h10,
                    if_pos h12, List.cons_append, List.cons_append, List.nil_append, pjs_escF, ih]
                  have hc : Char.ofNat 12 = c := by rw [← h12, Char.ofNat_toNat]
                  rw [hc]
                  rfl
                · by_cases h13 : c.toNat = 13
                  · rw [escChar, if_neg hq, if_neg hb, if_neg h32, if_neg h8, if_neg h9,
                      if_neg h10, if_neg h12, if_pos h13, List.cons_append, List.cons_append,
                      List.nil_append, pjs_escR, ih]
                    have hc : ('\r' : Char) = c := by
                      rw [show ('\r' : Char) = Char.ofNat 13 from rfl, ← h13, Char.ofNat_toNat]
                    rw [hc]
                    rfl
                  · have hdiv : c.toNat / 16 < 16 := by omega
                    have hmod : c.toNat % 16 < 16 := by omega
                    have hbound : (c.toNat / 16) * 16 + c.toNat % 16 < 55296 := by omega
                    rw [escChar, if_neg hq, if_neg hb, if_neg h32, if_neg h8, if_neg h9,
                      if_neg h10, if_neg h12, if_neg h13, List.cons_append, List.cons_append,
                      List.cons_append, List.cons_append, List.cons_append, List.cons_append,
                      List.nil_append,
                      pjs_escU00 _ _ _ _ _ (hexVal_hexDigitC hdiv) (hexVal_hexDigitC hmod) hbound,
                      ih]
                    have harith : (c.toNat / 16) * 16 + c.toNat % 16 = c.toNat := by omega
                    rw [harith, Char.ofNat_toNat]
                    rfl

/-! ## Parsing an encoded record -/

theorem pv_str (fuel : Nat) (l rest : List Char) :
    parseVal (fuel + 1) (jstrL l ++ rest) = some (.str l, rest) := by
  rw [jstrL, List.cons_append, List.append_assoc, List.cons_append, List.nil_append]
  rw [parseVal]
  rw [if_pos rfl, parseJStr_escList]
  rfl

theorem pv_null (fuel : Nat) (tail : List Char) :
    parseVal (fuel + 1) ('n' :: 'u' :: 'l' :: 'l' :: tail) = some (.null, tail) := by
  rw [parseVal]
  rw [if_neg (by decide), if_neg (by decide), if_neg (by decide), if_pos rfl]
  rfl

theorem pv_obj (fuel : Nat) (tail : List Char) (ms : List (List Char × Json))
    (rfin : List Char)
    (hm : parseMembers fuel (quoteC :: tail) = some (ms, rfin)) :
    parseVal (fuel + 1) (lbrace :: quoteC :: tail) = some (.obj ms, rfin) := by
  rw [parseVal]
  rw [if_neg (by decide), if_pos rfl]
  rw [show skipWs (quoteC :: tail) = quoteC :: tail from rfl]
  rw [parseObjBody]
  rw [if_neg (by decide), hm]
  rfl

theorem pm_key (fuel : Nat) (krest kl rest2 : List Char)
    (hk : parseJStr krest = some (kl, ':' :: rest2))
    (hws2 : skipWs rest2 = rest2) :
    parseMembers (fuel + 1) (quoteC :: krest)
      = parseMemberVal fuel kl (parseVal fuel rest2) := by
  rw [parseMembers, if_pos rfl, hk, parseMemberKey]
  rw [show skipWs (':' :: rest2) = ':' :: rest2 from rfl]
  rw [parseMemberColon, if_pos rfl, hws2]

theorem pm_val_comma (fuel : Nat) (kl r4 rfin : List Char) (v : Json)
    (ms : List (List Char × Json)) (r3 : List Char)
    (hr3 : skipWs r3 = ',' :: r4) (hws4 : skipWs r4 = r4)
    (hm : parseMembers fuel r4 = some (ms, rfin)) :
    parseMemberVal fuel kl (some (v, r3)) = some ((kl, v) :: ms, rfin) := by
  rw [parseMemberVal, hr3, parseMemberSep, if_pos rfl, hws4, hm]
  rfl

theorem pm_val_last (fuel : Nat) (kl rfin : List Char) (v : Json) (r3 : List Char)
    (hr3 : skipWs r3 = rbrace :: rfin) :
    parseMemberVal fuel kl (some (v, r3)) = some ([(kl, v)], rfin) := by
  rw [parseMemberVal, hr3, parseMemberSep]
  rw [if_neg (by decide), if_pos rfl]

theorem skipWs_jstrL (l X : List Char) : skipWs (jstrL l ++ X) = jstrL l ++ X := by
  rw [jstrL, List.cons_append]
  rfl

theorem parseVal_encode (it : LogItem) (m : Nat) (rest : List Char) :
    parseVal (m + 5) (encodeChars it ++ rest) = some (itemJson it, rest) := by
  have hval : parseVal (m + 1) (encValue it.value ++ rbrace :: rest)
      = some (jsonValue it.value, rbrace :: rest) := by
    match hv : it.value with
    | none =>
      rw [encValue, jsonValue, List.cons_append, List.cons_append, List.cons_append,
        List.cons_append, List.nil_append]
      exact pv_null m _
    | some v =>
      rw [encValue, jsonValue]
      exact pv_str m _ _
  have hm3 : parseMembers (m + 2)
      (quoteC :: 'v' :: 'a' :: 'l' :: 'u' :: 'e' :: quoteC :: ':'
        :: (encValue it.value ++ rbrace :: rest))
      = some ([(['v', 'a', 'l', 'u', 'e'], jsonValue it.value)], rest) := by
    rw [show (quoteC :: 'v' :: 'a' :: 'l' :: 'u' :: 'e' :: quoteC :: ':'
          :: (encValue it.value ++ rbrace :: rest))
        = quoteC :: (escList ['v', 'a', 'l', 'u', 'e']
            ++ '"' :: ':' :: (encValue it.value ++ rbrace :: rest)) from rfl]
    rw [show m + 2 = (m + 1) + 1 from rfl]
    rw [pm_key (m + 1) _ _ _ (parseJStr_escList ['v', 'a', 'l', 'u', 'e'] _) ?hws]
    case hws =>
      match hv : it.value with
      | none => rw [encValue, List.cons_append]; rfl
      | some v => rw [encValue]; exact skipWs_jstrL _ _
    rw [hval]
    exact pm_val_last _ _ _ _ _ rfl
  have hm2 : parseMembers (m + 3)
      (quoteC :: 'k' :: 'e' :: 'y' :: quoteC :: ':'
        :: (jstrL it.key.data ++ (',' :: quoteC :: 'v' :: 'a' :: 'l' :: 'u' :: 'e' :: quoteC :: ':'
          :: (encValue it.value ++ rbrace :: rest))))
      = some ([(['k', 'e', 'y'], .str it.key.data),
               (['v', 'a', 'l', 'u', 'e'], jsonValue it.value)], rest) := by
    rw [show (quoteC :: 'k' :: 'e' :: 'y' :: quoteC :: ':'
          :: (jstrL it.key.data ++ (',' :: quoteC :: 'v' :: 'a' :: 'l' :: 'u' :: 'e' :: quoteC :: ':'
            :: (encValue it.value ++ rbrace :: rest))))
        = quoteC :: (escList ['k', 'e', 'y']
            ++ '"' :: ':' :: (jstrL it.key.data
              ++ (',' :: quoteC :: 'v' :: 'a' :: 'l' :: 'u' :: 'e' :: quoteC :: ':'
                :: (encValue it.value ++ rbrace :: rest)))) from rfl]
    rw [show m + 3 = (m + 2) + 1 from rfl]
    rw [pm_key (m + 2) _ _ _ (parseJStr_escList ['k', 'e', 'y'] _) (skipWs_jstrL _ _)]
    rw [show m + 2 = (m + 1) + 1 from rfl]
    rw [pv_str (m + 1) it.key.data _]
    rw [show (m + 1) + 1 = m + 2 from rfl]
    exact pm_val_comma _ _ _ _ _ _ _ rfl rfl hm3
  have hm1 : parseMembers (m + 4)
      (quoteC :: 'c' :: 'm' :: 'd' :: quoteC :: ':'
        :: (jstrL it.cmd.data ++ (',' :: quoteC :: 'k' :: 'e' :: 'y' :: quoteC :: ':'
          :: (jstrL it.key.data ++ (',' :: quoteC :: 'v' :: 'a' :: 'l' :: 'u' :: 'e' :: quoteC :: ':'
            :: (encValue it.value ++ rbrace :: rest))))))
      = some ([(['c', 'm', 'd'], .str it.cmd.data),
               (['k', 'e', 'y'], .str it.key.data),
               (['v', 'a', 'l', 'u', 'e'], jsonValue it.value)], rest) := by
    rw [show (quoteC :: 'c' :: 'm' :: 'd' :: quoteC :: ':'
          :: (jstrL it.cmd.data ++ (',' :: quoteC :: 'k' :: 'e' :: 'y' :: quoteC :: ':'
            :: (jstrL it.key.data ++ (',' :: quoteC :: 'v' :: 'a' :: 'l' :: 'u' :: 'e' :: quoteC :: ':'
              :: (encValue it.value ++ rbrace :: rest))))))
        = quoteC :: (escList ['c', 'm', 'd']
            ++ '"' :: ':' :: (jstrL it.cmd.data
              ++ (',' :: quoteC :: 'k' :: 'e' :: 'y' :: quoteC :: ':'
                :: (jstrL it.key.data ++ (',' :: quoteC :: 'v' :: 'a' :: 'l' :: 'u' :: 'e' :: quoteC :: ':'
                  :: (encValue it.value ++ rbrace :: rest)))))) from rfl]
    rw [show m + 4 = (m + 3) + 1 from rfl]
    rw [pm_key (m + 3) _ _ _ (parseJStr_escList ['c', 'm', 'd'] _) (skipWs_jstrL _ _)]
    rw [show m + 3 = (m + 2) + 1 from rfl]
    rw [pv_str (m + 2) it.cmd.data _]
    rw [show (m + 2) + 1 = m + 3 from rfl]
    exact pm_val_comma _ _ _ _ _ _ _ rfl rfl hm2
  rw [encodeChars]
  simp only [List.cons_append, List.nil_append, List.append_assoc]
  rw [show jstrL it.cmd.data
        ++ (',' :: quoteC :: 'k' :: 'e' :: 'y' :: quoteC :: ':'
          :: (jstrL it.key.data ++ (',' :: quoteC :: 'v' :: 'a' :: 'l' :: 'u' :: 'e' :: quoteC :: ':'
            :: (encValue it.value ++ rbrace :: rest))))
      = jstrL it.cmd.data
        ++ (',' :: quoteC :: 'k' :: 'e' :: 'y' :: quoteC :: ':'
          :: (jstrL it.key.data ++ (',' :: quoteC :: 'v' :: 'a' :: 'l' :: 'u' :: 'e' :: quoteC :: ':'
            :: (encValue it.value ++ rbrace :: rest)))) from rfl]
  rw [show m + 5 = (m + 4) + 1 from rfl]
  rw [pv_obj (m + 4) _ _ _ hm1]
  rw [itemJson]

/-! ## The decode-encode round trip -/

theorem string_mk_data (s : String) : String.mk s.data = s := by
  obtain ⟨d⟩ := s
  rfl

theorem itemFromJson_itemJson (it : LogItem) : itemFromJson (itemJson it) = .ok it := by
  obtain ⟨c, k, v⟩ := it
  match v with
  | none =>
    simp [itemFromJson, itemJson, jsonValue, collectFields, string_mk_data]
  | some w =>
    simp [itemFromJson, itemJson, jsonValue, collectFields, string_mk_data]

theorem skipWs_enc (it : LogItem) (rest : List Char) :
    skipWs (encodeChars it ++ rest) = encodeChars it ++ rest := by
  rw [encodeChars]
  simp only [List.cons_append, List.nil_append, List.append_assoc]
  rfl

theorem enc_length_ge (it : LogItem) : 7 ≤ (encodeChars it).length := by
  rw [encodeChars]
  simp [List.length_append]

theorem decode_encode_tail (it : LogItem) (rest : List Char) (hws : skipWs rest = []) :
    decodeChars (encodeChars it ++ rest) = .ok it := by
  obtain ⟨m, hm⟩ : ∃ m, (encodeChars it ++ rest).length + 1 = m + 5 := by
    have := enc_length_ge it
    have hlen : (encodeChars it ++ rest).length = (encodeChars it).length + rest.length :=
      List.length_append _ _
    exact ⟨(encodeChars it ++ rest).length - 4, by omega⟩
  rw [decodeChars, skipWs_enc, hm, parseVal_encode, decodeFinish, hws]
  rw [if_pos rfl, itemFromJson_itemJson]

theorem decode_encode (it : LogItem) : decodeChars (encodeChars it) = .ok it := by
  have h := decode_encode_tail it [] rfl
  rwa [List.append_nil] at h

theorem decode_lineOf (it : LogItem) : decodeChars (lineOf it) = .ok it :=
  decode_encode_tail it ['\n'] rfl

/-! ## Encoded records contain no raw newline -/

theorem hexDigitC_ne_nl (n : Nat) (h : n < 16) : hexDigitC n ≠ '\n' := by
  intro hc
  have h10 := congrArg Char.toNat hc
  rw [show ('\n').toNat = 10 from rfl] at h10
  by_cases hn : n < 10
  · rw [hexDigitC, if_pos hn, char_toNat_ofNat (Or.inl (by omega))] at h10
    omega
  · rw [hexDigitC, if_neg hn, char_toNat_ofNat (Or.inl (by omega))] at h10
    omega

theorem noNl_escChar (c : Char) : '\n' ∉ escChar c := by
  rw [escChar]
  by_cases hq : c = quoteC
  · rw [if_pos hq]
    decide
  · rw [if_neg hq]
    by_cases hb : c = bslash
    · rw [if_pos hb]
      decide
    · rw [if_neg hb]
      by_cases h32 : 32 ≤ c.toNat
      · rw [if_pos h32]
        intro hmem
        have : c = '\n' := by
          rcases List.mem_singleton.mp hmem with h
          exact h.symm
        rw [this] at h32
        exact absurd h32 (by decide)
      · rw [if_neg h32]
        by_cases h8 : c.toNat = 8
        · rw [if_pos h8]; decide
        · rw [if_neg h8]
          by_cases h9 : c.toNat = 9
          · rw [if_pos h9]; decide
          · rw [if_neg h9]
            by_cases h10 : c.toNat = 10
            · rw [if_pos h10]; decide
            · rw [if_neg h10]
              by_cases h12 : c.toNat = 12
              · rw [if_pos h12]; decide
              · rw [if_neg h12]
                by_cases h13 : c.toNat = 13
                · rw [if_pos h13]; decide
                · rw [if_neg h13]
                  intro hmem
                  simp only [List.mem_cons, List.not_mem_nil, or_false] at hmem
                  rcases hmem with h | h | h | h | h | h
                  · exact absurd h (by decide)
                  · exact absurd h (by decide)
                  · exact absurd h (by decide)
                  · exact absurd h (by decide)
                  · exact hexDigitC_ne_nl _ (by omega) h.symm
                  · exact hexDigitC_ne_nl _ (by omega) h.symm

theorem noNl_escList : ∀ l : List Char, '\n' ∉ escList l := by
  intro l
  induction l with
  | nil => simp [escList]
  | cons c rest ih =>
    rw [escList]
    intro hmem
    rcases List.mem_append.mp hmem with h | h
    · exact noNl_escChar c h
    · exact ih h

theorem noNl_jstrL (l : List Char) : '\n' ∉ jstrL l := by
  rw [jstrL]
  intro hmem
  rcases List.mem_cons.mp hmem with h | h
  · exact absurd h (by decide)
  · rcases List.mem_append.mp h with h2 | h2
    · exact noNl_escList l h2
    · rcases List.mem_singleton.mp h2 with h3
      exact absurd h3 (by decide)

theorem noNl_encValue (v : Option String) : '\n' ∉ encValue v := by
  cases v with
  | none => decide
  | some w => exact noNl_jstrL w.data

theorem noNl_encodeChars (it : LogItem) : noNl (encodeChars it) := by
  rw [noNl, encodeChars]
  intro hmem
  rcases List.mem_append.mp hmem with h6 | h
  · rcases List.mem_append.mp h6 with h5 | h
    · rcases List.mem_append.mp h5 with h4 | h
      · rcases List.mem_append.mp h4 with h3 | h
        · rcases List.mem_append.mp h3 with h2 | h
          · rcases List.mem_append.mp h2 with h1 | h
            · exact absurd h1 (by decide)
            · exact noNl_jstrL _ h
          · exact absurd h (by decide)
        · exact noNl_jstrL _ h
      · exact absurd h (by decide)
    · exact noNl_encValue it.value h
  · exact absurd h (by decide)

/-! ## Replay of well-formed line sequences -/

theorem lineOk_lineOf (it : LogItem) (h : goodCmd it = true) : LineOk (lineOf it, it) :=
  ⟨⟨encodeChars it, rfl, noNl_encodeChars it⟩, decode_lineOf it, h⟩

theorem buildIndexAux_line (L rest : List Char) (item : LogItem) (c : Nat) (idx : Index)
    (hL : readLine (L ++ rest) = (L, rest)) (hne : L ++ rest ≠ [])
    (hdec : decodeChars L = .ok item) :
    buildIndexAux (L ++ rest) c idx
      = if item.cmd = "set" then
          buildIndexAux rest (c + L.length) (idxInsert item.key (.Exist c) idx)
        else if item.cmd = "rm" then
          buildIndexAux rest (c + L.length) (idxInsert item.key (.Removed c) idx)
        else .error (.unknownCmd item) := by
  rw [buildIndexAux, dif_neg hne]
  simp only [hL, hdec]

theorem readLine_lineOk {L rest : List Char} {item : LogItem} (h : LineOk (L, item)) :
    readLine (L ++ rest) = (L, rest) := by
  obtain ⟨⟨l, hl, hnl⟩, _, _⟩ := h
  have hl' : L = l ++ ['\n'] := hl
  rw [hl', List.append_assoc, List.singleton_append, readLine_term _ _ hnl]

theorem lineOk_ne_nil {L : List Char} {item : LogItem} (h : LineOk (L, item)) : L ≠ [] := by
  obtain ⟨⟨l, hl, _⟩, _, _⟩ := h
  have hl' : L = l ++ ['\n'] := hl
  rw [hl']
  simp

theorem buildIndexAux_flat : ∀ (ps : List (List Char × LogItem)) (c : Nat) (idx : Index),
    (∀ p ∈ ps, LineOk p) →
    buildIndexAux ((ps.map Prod.fst).flatten) c idx = .ok (foldPs ps c idx) := by
  intro ps
  induction ps with
  | nil =>
    intro c idx _
    rw [List.map_nil, List.flatten_nil, buildIndexAux, dif_pos rfl, foldPs]
  | cons p ps ih =>
    intro c idx hok
    obtain ⟨L, item⟩ := p
    have hp := hok _ (List.mem_cons_self _ _)
    have hdec : decodeChars L = .ok item := hp.2.1
    have hcmd : goodCmd item = true := hp.2.2
    rw [List.map_cons, List.flatten_cons]
    rw [buildIndexAux_line L ((ps.map Prod.fst).flatten) item c idx
      (readLine_lineOk hp) ?hne hdec]
    case hne =>
      have := lineOk_ne_nil hp
      intro hh
      rcases List.append_eq_nil.mp hh with ⟨h1, _⟩
      exact this h1
    rw [goodCmd] at hcmd
    rcases Bool.or_eq_true_iff.mp hcmd with hset | hrm
    · have hset' : item.cmd = "set" := by simpa using hset
      rw [if_pos hset', foldPs, tagOf, if_pos hset']
      exact ih _ _ fun q hq => hok _ (List.mem_cons_of_mem _ hq)
    · have hrm' : item.cmd = "rm" := by simpa using hrm
      have hns : ¬item.cmd = "set" := by
        rw [hrm']
        decide
      rw [if_neg hns, if_pos hrm', foldPs, tagOf, if_neg hns]
      exact ih _ _ fun q hq => hok _ (List.mem_cons_of_mem _ hq)

theorem idxLookup_foldPs : ∀ (ps : List (List Char × LogItem)) (c : Nat) (idx : Index)
    (k : String),
    idxLookup (foldPs ps c idx) k
      = match lastPFor ps c k with
        | some q => some (tagOf q.1 q.2)
        | none => idxLookup idx k := by
  intro ps
  induction ps with
  | nil => intro c idx k; rfl
  | cons p ps ih =>
    intro c idx k
    obtain ⟨L, item⟩ := p
    rw [foldPs, lastPFor, ih]
    match hlast : lastPFor ps (c + L.length) k with
    | some q => rfl
    | none =>
      by_cases hk : item.key = k
      · subst hk
        rw [idxLookup_idxInsert_self, if_pos rfl]
      · rw [idxLookup_idxInsert_ne _ _ _ _ fun hh => hk hh.symm, if_neg hk]

theorem lastPFor_pairsOf : ∀ (rs : List LogItem) (c : Nat) (k : String),
    lastPFor (pairsOf rs) c k
      = ((withOffsets rs c).filter fun p => p.1.key = k).getLast? := by
  intro rs
  induction rs with
  | nil => intro c k; rfl
  | cons r rs ih =>
    intro c k
    rw [pairsOf, List.map_cons, lastPFor, withOffsets, List.filter_cons]
    rw [show (pairsOf rs) = rs.map (fun r => (lineOf r, r)) from rfl] at ih
    rw [ih]
    by_cases hk : r.key = k
    · have hkd : decide (r.key = k) = true := by simp [hk]
      rcases hlast : ((withOffsets rs (c + (lineOf r).length)).filter
          fun p => p.1.key = k).getLast? with _ | q
      · have hF : ((withOffsets rs (c + (lineOf r).length)).filter
            fun p => p.1.key = k) = [] := List.getLast?_eq_none_iff.mp hlast
        simp only [hlast]
        rw [if_pos hk, if_pos hkd, hF]
        rfl
      · have hFne : ((withOffsets rs (c + (lineOf r).length)).filter
            fun p => p.1.key = k) ≠ [] := by
          intro hh
          rw [hh] at hlast
          simp at hlast
        simp only [hlast]
        rw [if_pos hkd, getLast?_cons_of_ne hFne, hlast]
    · have hkd : ¬decide (r.key = k) = true := by simp [hk]
      rcases hlast : ((withOffsets rs (c + (lineOf r).length)).filter
          fun p => p.1.key = k).getLast? with _ | q
      · simp only [hlast]
        rw [if_neg hk, if_neg hkd, hlast]
      · simp only [hlast]
        rw [if_neg hkd, hlast]

/-! ## Soundness of replay: indexed entries point at matching records -/

theorem readLine_snd_lt (cs : List Char) (h : cs ≠ []) :
    (readLine cs).2.length < cs.length := by
  have hgen : ∀ (c : Char) (cs' : List Char),
      (readLine (c :: cs')).2.length < (c :: cs').length := by
    intro c cs'
    induction cs' generalizing c with
    | nil =>
      simp only [readLine]
      split <;> simp
    | cons d rest ih =>
      simp only [readLine]
      split
      · simp
      · simpa using Nat.lt_trans (ih d) (by simp)
  rcases cs with _ | ⟨c, cs'⟩
  · exact absurd rfl h
  · exact hgen c cs'

theorem buildIndexAux_sound : ∀ (n : Nat) (rest pre : List Char) (idx0 idx : Index),
    rest.length ≤ n →
    (∀ pk ∈ idx0, EntryOk (pre ++ rest) pk.1 pk.2) → keysDistinct idx0 →
    buildIndexAux rest pre.length idx0 = .ok idx →
    (∀ pk ∈ idx, EntryOk (pre ++ rest) pk.1 pk.2) ∧ keysDistinct idx := by
  intro n
  induction n with
  | zero =>
    intro rest pre idx0 idx hlen h0 hd0 hrun
    have hrest : rest = [] := List.length_eq_zero.mp (Nat.le_zero.mp hlen)
    subst hrest
    rw [buildIndexAux, dif_pos rfl] at hrun
    cases hrun
    exact ⟨h0, hd0⟩
  | succ n ih =>
    intro rest pre idx0 idx hlen h0 hd0 hrun
    by_cases hrest : rest = []
    · subst hrest
      rw [buildIndexAux, dif_pos rfl] at hrun
      cases hrun
      exact ⟨h0, hd0⟩
    · rw [buildIndexAux, dif_neg hrest] at hrun
      have hlt := readLine_snd_lt rest hrest
      have hsplit := readLine_append_snd rest
      split at hrun
      · exact absurd hrun (by simp)
      · rename_i item heq
        have hpre' : (pre ++ (readLine rest).1).length
            = pre.length + (readLine rest).1.length := List.length_append _ _
        have happ : (pre ++ (readLine rest).1) ++ (readLine rest).2 = pre ++ rest := by
          rw [List.append_assoc, hsplit]
        have hmemok : ∀ (e : IndexEntry), item.cmd = entryCmd e → entryOff e = pre.length →
            EntryOk (pre ++ rest) item.key e := by
          intro e hcmd hoff
          refine ⟨?_, item, ?_, rfl, hcmd⟩
          · rw [hoff]
            have : 0 < rest.length := by
              rcases rest with _ | _
              · exact absurd rfl hrest
              · simp
            simp only [List.length_append]
            omega
          · rw [hoff, lineAt, List.drop_left, heq]
        split at hrun
        · rename_i hset
          have hres := ih (readLine rest).2 (pre ++ (readLine rest).1)
            (idxInsert item.key (.Exist pre.length) idx0) idx
            (by omega) ?entries ?dst ?run
          case entries =>
            intro pk hpk
            rw [happ]
            rcases mem_idxInsert hpk with hnew | hold
            · rw [hnew]
              exact hmemok _ (by rw [hset]; rfl) rfl
            · exact h0 pk hold
          case dst => exact keysDistinct_idxInsert _ _ hd0
          case run => rwa [hpre']
          rw [happ] at hres
          exact hres
        · rename_i hnotset
          split at hrun
          · rename_i hrm
            have hres := ih (readLine rest).2 (pre ++ (readLine rest).1)
              (idxInsert item.key (.Removed pre.length) idx0) idx
              (by omega) ?entries2 ?dst2 ?run2
            case entries2 =>
              intro pk hpk
              rw [happ]
              rcases mem_idxInsert hpk with hnew | hold
              · rw [hnew]
                exact hmemok _ (by rw [hrm]; rfl) rfl
              · exact h0 pk hold
            case dst2 => exact keysDistinct_idxInsert _ _ hd0
            case run2 => rwa [hpre']
            rw [happ] at hres
            exact hres
          · exact absurd hrun (by simp)

theorem build_index_sound {data : List Char} {idx : Index}
    (h : build_index data = .ok idx) :
    (∀ pk ∈ idx, EntryOk data pk.1 pk.2) ∧ keysDistinct idx := by
  have := buildIndexAux_sound data.length data [] [] idx (Nat.le_refl _)
    (by intro pk hpk; exact absurd hpk (List.not_mem_nil pk)) (by exact List.Pairwise.nil)
    (by simpa using h)
  simpa using this

/-! ## Replay of rendered record sequences (claim C3 infrastructure) -/

theorem readLine_lineOf (it : LogItem) (rest : List Char) :
    readLine (lineOf it ++ rest) = (lineOf it, rest) := by
  rw [lineOf, List.append_assoc, List.singleton_append,
    readLine_term _ _ (noNl_encodeChars it)]

theorem lineOf_ne_nil (it : LogItem) : lineOf it ≠ [] := by
  rw [lineOf]
  simp

theorem map_lineOf_eq (rs : List LogItem) :
    rs.map lineOf = (pairsOf rs).map Prod.fst := by
  rw [pairsOf, List.map_map]
  rfl

theorem build_index_renderFile (rs : List LogItem) (h : ∀ r ∈ rs, goodCmd r = true) :
    build_index (renderFile rs) = .ok (foldPs (pairsOf rs) 0 []) := by
  rw [build_index, renderFile, map_lineOf_eq]
  refine buildIndexAux_flat _ 0 [] ?_
  intro p hp
  rw [pairsOf] at hp
  obtain ⟨r, hr, hpr⟩ := List.mem_map.mp hp
  rw [← hpr]
  exact lineOk_lineOf r (h r hr)

theorem buildIndexAux_renderFile_bad : ∀ (rs : List LogItem) (c : Nat) (idx : Index)
    (r : LogItem), rs.find? (fun x => !goodCmd x) = some r →
    buildIndexAux (renderFile rs) c idx = .error (.unknownCmd r) := by
  intro rs
  induction rs with
  | nil =>
    intro c idx r hfind
    simp [List.find?] at hfind
  | cons r0 rs ih =>
    intro c idx r hfind
    rw [renderFile, List.map_cons, List.flatten_cons]
    by_cases hgood : goodCmd r0 = true
    · have hfind' : rs.find? (fun x => !goodCmd x) = some r := by
        rwa [List.find?_cons_of_neg _ (by simp [hgood])] at hfind
      rw [buildIndexAux_line (lineOf r0) _ r0 c idx (readLine_lineOf r0 _) ?hne
        (decode_lineOf r0)]
      case hne =>
        intro hh
        rcases List.append_eq_nil.mp hh with ⟨h1, _⟩
        exact lineOf_ne_nil r0 h1
      rw [goodCmd] at hgood
      rcases Bool.or_eq_true_iff.mp hgood with hset | hrm
      · rw [if_pos (by simpa using hset)]
        exact ih _ _ _ hfind'
      · have hrm' : r0.cmd = "rm" := by simpa using hrm
        rw [if_neg (by rw [hrm']; decide), if_pos hrm']
        exact ih _ _ _ hfind'
    · have hr0 : r0 = r := by
        rw [List.find?_cons_of_pos _ (by simp [hgood])] at hfind
        exact Option.some.inj hfind
      subst hr0
      rw [buildIndexAux_line (lineOf r0) _ r0 c idx (readLine_lineOf r0 _) ?hne2
        (decode_lineOf r0)]
      case hne2 =>
        intro hh
        rcases List.append_eq_nil.mp hh with ⟨h1, _⟩
        exact lineOf_ne_nil r0 h1
      have hns : ¬r0.cmd = "set" := by
        intro hh
        exact hgood (by rw [goodCmd, hh]; decide)
      have hnr : ¬r0.cmd = "rm" := by
        intro hh
        exact hgood (by rw [goodCmd, hh]; decide)
      rw [if_neg hns, if_neg hnr]

/-! ## Compaction rewrite machinery (claim C6 infrastructure) -/

theorem idxLookup_mem : ∀ {idx : Index} {k : String} {e : IndexEntry},
    idxLookup idx k = some e → (k, e) ∈ idx := by
  intro idx
  induction idx with
  | nil => intro k e h; exact absurd h (by simp [idxLookup])
  | cons q rest ih =>
    intro k e h
    obtain ⟨k0, e0⟩ := q
    rw [idxLookup] at h
    by_cases hk : k0 = k
    · rw [if_pos hk] at h
      have he := Option.some.inj h
      rw [← hk, ← he]
      exact List.mem_cons_self _ _
    · rw [if_neg hk] at h
      exact List.mem_cons_of_mem _ (ih h)

theorem decodedItem_eq {data : List Char} {e : IndexEntry} {item : LogItem}
    (h : decodeChars (lineAt data (entryOff e)) = .ok item) :
    decodedItem data e = item := by
  rw [decodedItem, h]

theorem lastPFor_none : ∀ (ps : List (List Char × LogItem)) (c : Nat) (k : String),
    (∀ p ∈ ps, p.2.key ≠ k) → lastPFor ps c k = none := by
  intro ps
  induction ps with
  | nil => intro c k _; rfl
  | cons p ps ih =>
    intro c k hne
    obtain ⟨L, it⟩ := p
    rw [lastPFor, ih _ _ fun q hq => hne _ (List.mem_cons_of_mem _ hq)]
    rw [if_neg (hne _ (List.mem_cons_self _ _))]

theorem lastPFor_distinct : ∀ (ps : List (List Char × LogItem)) (c : Nat) (k : String)
    (L : List Char) (item : LogItem),
    ps.Pairwise (fun a b => a.2.key ≠ b.2.key) →
    (L, item) ∈ ps → item.key = k →
    ∃ o, lastPFor ps c k = some (item, o) ∧ c ≤ o ∧
      ∃ pre suf, (ps.map Prod.fst).flatten = pre ++ (L ++ suf) ∧ pre.length = o - c := by
  intro ps
  induction ps with
  | nil => intro c k L item _ hmem; exact absurd hmem (List.not_mem_nil _)
  | cons p ps ih =>
    intro c k L item hpw hmem hkey
    obtain ⟨L0, it0⟩ := p
    rw [List.pairwise_cons] at hpw
    obtain ⟨hhead, htail⟩ := hpw
    rcases List.mem_cons.mp hmem with hfirst | hrest
    · have hL : L0 = L := (Prod.mk.injEq _ _ _ _).mp hfirst.symm |>.1
      have hit : it0 = item := (Prod.mk.injEq _ _ _ _).mp hfirst.symm |>.2
      subst hL
      subst hit
      have hnone : lastPFor ps (c + L0.length) k = none := by
        refine lastPFor_none _ _ _ fun q hq => ?_
        have := hhead q hq
        rw [← hkey]
        intro hh
        exact this hh.symm
      rw [lastPFor, hnone, if_pos hkey]
      refine ⟨c, rfl, Nat.le_refl _, [], (ps.map Prod.fst).flatten, ?_, by simp⟩
      rw [List.map_cons, List.flatten_cons, List.nil_append]
    · obtain ⟨o, ho, hco, pre, suf, hflat, hpre⟩ := ih (c + L0.length) k L item htail hrest hkey
      rw [lastPFor, ho]
      refine ⟨o, rfl, by omega, L0 ++ pre, suf, ?_, ?_⟩
      · rw [List.map_cons, List.flatten_cons, hflat, List.append_assoc]
      · rw [List.length_append]
        omega

theorem lineAt_boundary {pre L suf : List Char} {item : LogItem}
    (hok : LineOk (L, item)) : lineAt (pre ++ (L ++ suf)) pre.length = L := by
  rw [lineAt, List.drop_left, readLine_lineOk hok]

theorem lineAt_len_ne_zero {data : List Char} {o : Nat} (h : o < data.length) :
    (lineAt data o).length ≠ 0 := by
  have hdrop : data.drop o ≠ [] := by
    intro hh
    have := congrArg List.length hh
    simp at this
    omega
  rw [lineAt]
  intro hh
  exact readLine_fst_ne_nil hdrop (List.length_eq_zero.mp hh)

theorem scanCons_ok (line : List Char) (pr : Except SegError (List (List Char)) × Nat)
    (lines : List (List Char)) (h : pr.1 = .ok lines) :
    (scanCons line pr).1 = .ok (line :: lines) := by
  obtain ⟨res, pf⟩ := pr
  have hres : res = .ok lines := h
  subst hres
  rfl

theorem scanGo_ok (data : List Char) : ∀ (idx : Index) (pos : Nat),
    (∀ pk ∈ idx, entryOff pk.2 < data.length) →
    (scanGo data idx pos).1 = .ok (idx.map fun pk => lineAt data (entryOff pk.2)) := by
  intro idx
  induction idx with
  | nil => intro pos _; rfl
  | cons q rest ih =>
    intro pos hoffs
    obtain ⟨k0, e0⟩ := q
    have hoff : entryOff e0 < data.length := hoffs _ (List.mem_cons_self _ _)
    have hlz := lineAt_len_ne_zero hoff
    simp only [scanGo]
    rw [if_neg hlz]
    rw [List.map_cons]
    exact scanCons_ok _ _ _ (ih _ fun pk hpk => hoffs _ (List.mem_cons_of_mem _ hpk))

theorem seg_scan_ok {i : Nat} {idx : Index} {data : List Char} {p : Nat}
    (hoffs : ∀ pk ∈ idx, entryOff pk.2 < data.length) :
    (Seg.scan ⟨i, idx, some ⟨data, p⟩⟩).1
      = .ok (idx.map fun pk => lineAt data (entryOff pk.2)) := by
  rw [Seg.scan]
  rcases hscan : scanGo data idx p with ⟨res, pfin⟩
  have hres := scanGo_ok data idx p hoffs
  rw [hscan] at hres
  simp only [hscan]
  exact hres

theorem seg_new_ok {i : Nat} {data : List Char} {idx : Index}
    (h : build_index data = .ok idx) :
    Seg.new true i data = .ok ⟨i, idx, some ⟨data, 0⟩⟩ := by
  rw [Seg.new, Bool.not_true, if_neg (by decide), h, segOfIndex]

theorem getAns_some {i : Nat} {idx : Index} {data : List Char} {p o : Nat} {k : String}
    {item : LogItem} {v : String}
    (hlook : idxLookup idx k = some (.Exist o))
    (hlt : o < data.length)
    (hdec : decodeChars (lineAt data o) = .ok item)
    (hval : item.value = some v) :
    Seg.getAns ⟨i, idx, some ⟨data, p⟩⟩ k = .ok (some v) := by
  have hne := lineAt_len_ne_zero hlt
  simp only [Seg.getAns, Seg.get, hlook]
  rw [if_neg hne]
  simp only [hdec, hval]

theorem getAns_val {i : Nat} {idx : Index} {data : List Char} {p o : Nat} {k : String}
    {item : LogItem} {v : String}
    (hlook : idxLookup idx k = some (.Exist o))
    (hdec : decodeChars (lineAt data o) = .ok item)
    (hget : Seg.getAns ⟨i, idx, some ⟨data, p⟩⟩ k = .ok (some v)) :
    item.value = some v := by
  simp only [Seg.getAns, Seg.get, hlook] at hget
  by_cases hne : (lineAt data o).length = 0
  · rw [if_pos hne] at hget
    exact absurd hget (by simp)
  · rw [if_neg hne] at hget
    simp only [hdec] at hget
    rcases hval : item.value with _ | w
    · rw [hval] at hget
      exact absurd hget (by simp)
    · rw [hval] at hget
      simp only [Except.ok.injEq, Option.some.injEq] at hget
      rw [hget]

theorem compactRewrite_preserves (i : Nat) (idx : Index) (data : List Char) (p : Nat)
    (hbi : build_index data = .ok idx) (hnl : endsNl data = true) :
    compactRewrite ⟨i, idx, some ⟨data, p⟩⟩
        = .ok ⟨i, foldPs (idx.map fun pk => (lineAt data (entryOff pk.2),
            decodedItem data pk.2)) 0 [],
          some ⟨(idx.map fun pk => lineAt data (entryOff pk.2)).flatten, 0⟩⟩
      ∧ ∀ (k : String) (o : Nat) (v : String),
        idxLookup idx k = some (.Exist o) →
        Seg.getAns ⟨i, idx, some ⟨data, p⟩⟩ k = .ok (some v) →
        ∃ o', idxLookup (foldPs (idx.map fun pk => (lineAt data (entryOff pk.2),
            decodedItem data pk.2)) 0 []) k = some (.Exist o')
          ∧ Seg.getAns ⟨i, foldPs (idx.map fun pk => (lineAt data (entryOff pk.2),
              decodedItem data pk.2)) 0 [],
            some ⟨(idx.map fun pk => lineAt data (entryOff pk.2)).flatten, 0⟩⟩ k
            = .ok (some v) := by
  obtain ⟨hent, hdist⟩ := build_index_sound hbi
  have hoffs : ∀ pk ∈ idx, entryOff pk.2 < data.length := fun pk h => (hent pk h).1
  have hkeys : ∀ pk ∈ idx, (decodedItem data pk.2).key = pk.1 := by
    intro pk hpk
    obtain ⟨_, item', hdec', hkey', _⟩ := hent pk hpk
    rw [decodedItem_eq hdec']
    exact hkey'
  have hlinesOk : ∀ q ∈ (idx.map fun pk => (lineAt data (entryOff pk.2),
      decodedItem data pk.2)), LineOk q := by
    intro q hq
    obtain ⟨pk, hpk, hq'⟩ := List.mem_map.mp hq
    obtain ⟨hofflt, item, hdec, hkey, hcmd⟩ := hent pk hpk
    have hdi := decodedItem_eq hdec
    rw [← hq']
    refine ⟨?_, ?_, ?_⟩
    · exact line_terminated hnl hofflt
    · show decodeChars (lineAt data (entryOff pk.2)) = .ok (decodedItem data pk.2)
      rw [hdi]
      exact hdec
    · show goodCmd (decodedItem data pk.2) = true
      rw [goodCmd, hdi, hcmd]
      cases pk.2 <;> rfl
  have hmapfst : (idx.map fun pk => (lineAt data (entryOff pk.2),
      decodedItem data pk.2)).map Prod.fst = idx.map fun pk => lineAt data (entryOff pk.2) := by
    rw [List.map_map]
    rfl
  have hbi' : build_index (idx.map fun pk => lineAt data (entryOff pk.2)).flatten
      = .ok (foldPs (idx.map fun pk => (lineAt data (entryOff pk.2),
          decodedItem data pk.2)) 0 []) := by
    rw [build_index, ← hmapfst]
    exact buildIndexAux_flat _ 0 [] hlinesOk
  have hscan := seg_scan_ok (i := i) (p := p) hoffs
  have hcr : compactRewrite ⟨i, idx, some ⟨data, p⟩⟩
      = .ok ⟨i, foldPs (idx.map fun pk => (lineAt data (entryOff pk.2),
          decodedItem data pk.2)) 0 [],
        some ⟨(idx.map fun pk => lineAt data (entryOff pk.2)).flatten, 0⟩⟩ := by
    simp only [compactRewrite, hscan]
    exact seg_new_ok hbi'
  refine ⟨hcr, ?_⟩
  intro k o v hlook hget
  have hmem : (k, IndexEntry.Exist o) ∈ idx := idxLookup_mem hlook
  obtain ⟨hofflt, item, hdec, hkey, hcmd⟩ := hent _ hmem
  have hcmd' : item.cmd = "set" := hcmd
  have hofflt' : o < data.length := hofflt
  have hdec' : decodeChars (lineAt data o) = .ok item := hdec
  have hdi : decodedItem data (IndexEntry.Exist o) = item := decodedItem_eq hdec
  have hpairmem : (lineAt data o, item) ∈ (idx.map fun pk => (lineAt data (entryOff pk.2),
      decodedItem data pk.2)) := by
    refine List.mem_map.mpr ⟨(k, IndexEntry.Exist o), hmem, ?_⟩
    show (lineAt data o, decodedItem data (IndexEntry.Exist o)) = (lineAt data o, item)
    rw [hdi]
  have hpw : (idx.map fun pk => (lineAt data (entryOff pk.2),
      decodedItem data pk.2)).Pairwise fun a b => a.2.key ≠ b.2.key := by
    rw [List.pairwise_map]
    refine List.Pairwise.imp_of_mem ?_ hdist
    intro a b ha hb hne
    intro hh
    rw [hkeys a ha, hkeys b hb] at hh
    exact hne hh
  have hkey' : item.key = k := hkey
  obtain ⟨o', hlast, _, pre, suf, hflat, hpre⟩ :=
    lastPFor_distinct _ 0 k (lineAt data o) item hpw hpairmem hkey'
  have hpre' : pre.length = o' := by omega
  have hlook' : idxLookup (foldPs (idx.map fun pk => (lineAt data (entryOff pk.2),
      decodedItem data pk.2)) 0 []) k = some (.Exist o') := by
    rw [idxLookup_foldPs]
    simp only [hlast]
    rw [tagOf, if_pos hcmd']
  have hLok : LineOk (lineAt data o, item) := hlinesOk _ hpairmem
  have hlineAt : lineAt (idx.map fun pk => lineAt data (entryOff pk.2)).flatten o'
      = lineAt data o := by
    rw [← hmapfst, hflat, ← hpre']
    exact lineAt_boundary hLok
  have hlen' : o' < (idx.map fun pk => lineAt data (entryOff pk.2)).flatten.length := by
    rw [← hmapfst, hflat]
    have hLne := lineOk_ne_nil hLok
    have : 0 < (lineAt data o).length := by
      rcases hL : lineAt data o with _ | ⟨c, cs⟩
      · exact absurd hL hLne
      · simp
    simp only [List.length_append]
    omega
  have hval : item.value = some v := getAns_val hlook hdec' hget
  refine ⟨o', hlook', ?_⟩
  exact getAns_some hlook' hlen' (by rw [hlineAt]; exact hdec') hval

/-! ## Concrete replay evaluations -/

theorem buildIndexAux_nil (c : Nat) (idx : Index) : buildIndexAux [] c idx = .ok idx := by
  rw [buildIndexAux]
  simp

theorem rf_one (it : LogItem) : renderFile [it] = lineOf it := by
  simp [renderFile]

theorem rf_two (it1 it2 : LogItem) : renderFile [it1, it2] = lineOf it1 ++ lineOf it2 := by
  simp [renderFile]

theorem bi_A : build_index lineA = .ok [("a", .Exist 0)] := by
  rw [show lineA = renderFile [itemA] from (rf_one itemA).symm,
    build_index_renderFile _ (by decide)]
  rfl

theorem bi_B : build_index lineB = .ok [("b", .Exist 0)] := by
  rw [show lineB = renderFile [itemB] from (rf_one itemB).symm,
    build_index_renderFile _ (by decide)]
  rfl

theorem bi_AB : build_index (lineA ++ lineB) = .ok [("a", .Exist 0), ("b", .Exist 36)] := by
  rw [show lineA ++ lineB = renderFile [itemA, itemB] from (rf_two itemA itemB).symm,
    build_index_renderFile _ (by decide)]
  rfl

theorem bi_c6w : build_index c6wData
    = .ok [("a", .Exist 36)] := by
  rw [show c6wData = renderFile [⟨"set", "a", some "1"⟩, ⟨"set", "a", some "2"⟩]
      from (rf_two _ _).symm,
    build_index_renderFile _ (by decide)]
  rfl

/-! ## Opening concrete directories -/

theorem seg_new_empty (i : Nat) : Seg.new true i [] = .ok ⟨i, [], some ⟨[], 0⟩⟩ :=
  seg_new_ok (buildIndexAux_nil 0 [])

theorem openStore_empty : openStore (some []) = .opened ⟨⟨0, [], some ⟨[], 0⟩⟩, [], 1⟩ := by
  simp [openStore, get_file_paths, sortPairs, seg_new_empty 0]

theorem openStore_single (i : Nat) (d : List Char) (s : Seg)
    (h : Seg.new true i d = .ok s) : openStore (some [(i, d)]) = .opened ⟨s, [], i + 1⟩ := by
  simp [openStore, get_file_paths, sortPairs, insertPair, buildImmutables, h]

/-! ## The reopen-then-set scenario, state by state (claims C1 and C2) -/

theorem c1st0_eq : c1st0 = ⟨⟨0, [], some ⟨[], 0⟩⟩, [], 1⟩ := by
  rw [c1st0, openStore_empty]
  rfl

theorem c1st1_eq : c1st1 = ⟨⟨0, [("a", .Exist 0)], some ⟨lineA, 36⟩⟩, [], 1⟩ := by
  rw [c1st1, c1st0_eq]
  decide

theorem c1stA_eq : c1stA = ⟨⟨0, [("a", .Exist 0)], some ⟨lineA, 0⟩⟩, [], 1⟩ := by
  rw [c1stA, c1st1_eq,
    show closeStore ⟨⟨0, [("a", .Exist 0)], some ⟨lineA, 36⟩⟩, [], 1⟩ = [(0, lineA)] from rfl,
    openStore_single 0 lineA _ (seg_new_ok bi_A)]
  rfl

theorem c1stB_eq : c1stB
    = ⟨⟨0, [("a", .Exist 0), ("b", .Exist 0)], some ⟨lineA ++ lineB, 72⟩⟩, [], 1⟩ := by
  rw [c1stB, c1stA_eq]
  decide

theorem c1stC_eq : c1stC
    = ⟨⟨0, [("a", .Exist 0), ("b", .Exist 36)], some ⟨lineA ++ lineB, 0⟩⟩, [], 1⟩ := by
  rw [c1stC, c1stB_eq,
    show closeStore ⟨⟨0, [("a", .Exist 0), ("b", .Exist 0)], some ⟨lineA ++ lineB, 72⟩⟩, [], 1⟩
      = [(0, lineA ++ lineB)] from rfl,
    openStore_single 0 (lineA ++ lineB) _ (seg_new_ok bi_AB)]
  rfl

theorem dec_lineAt_AB_0 : decodeChars (lineAt (lineA ++ lineB) 0) = .ok itemA := by
  rw [show lineAt (lineA ++ lineB) 0 = (readLine (lineOf itemA ++ lineB)).1 from rfl,
    readLine_lineOf]
  exact decode_lineOf itemA

theorem dec_lineAt_AB_36 : decodeChars (lineAt (lineA ++ lineB) 36) = .ok itemB := by
  rw [show lineAt (lineA ++ lineB) 36 = (readLine (lineOf itemB ++ ([] : List Char))).1 by rfl,
    readLine_lineOf]
  exact decode_lineOf itemB

/-! ## Routing helpers (claim C4) -/

theorem findTarget_mut (st : LogFiles) (k : String) (h : contains_key st.mutSeg k = true) :
    findTarget st k = some st.mutSeg := by
  rw [findTarget, if_pos h]

theorem findTarget_immut (st : LogFiles) (k : String) (h : contains_key st.mutSeg k = false) :
    findTarget st k = st.immutables.find? fun s => contains_key s k := by
  rw [findTarget, if_neg (by simp [h])]

theorem kvget_of_find (st : LogFiles) (k : String) (t : Seg)
    (h : findTarget st k = some t) : KvStore.get st k = Seg.getAns t k := by
  unfold KvStore.get
  rw [h]

theorem kvget_of_none (st : LogFiles) (k : String)
    (h : findTarget st k = none) : KvStore.get st k = .ok none := by
  unfold KvStore.get
  rw [h]

theorem find?_first {α : Type} (p : α → Bool) : ∀ (pre : List α) (t : α) (post : List α),
    (∀ s ∈ pre, p s = false) → p t = true → (pre ++ t :: post).find? p = some t := by
  intro pre
  induction pre with
  | nil =>
    intro t post _ ht
    exact List.find?_cons_of_pos _ ht
  | cons a pre ih =>
    intro t post hpre ht
    rw [List.cons_append, List.find?_cons_of_neg _ (by simp [hpre a (by simp)])]
    exact ih t post (fun s hs => hpre s (by simp [hs])) ht

/-! ## Immutables come out of `open` in ascending identifier order -/

theorem mem_insertPair {x p : Nat × List Char} :
    ∀ {l : List (Nat × List Char)}, x ∈ insertPair p l → x = p ∨ x ∈ l := by
  intro l
  induction l with
  | nil =>
    intro h
    rw [insertPair] at h
    simp at h
    exact Or.inl h
  | cons q rest ih =>
    intro h
    rw [insertPair] at h
    split at h
    · rcases List.mem_cons.mp h with h1 | h2
      · exact Or.inl h1
      · exact Or.inr h2
    · rcases List.mem_cons.mp h with h1 | h2
      · exact Or.inr (by simp [h1])
      · rcases ih h2 with h3 | h4
        · exact Or.inl h3
        · exact Or.inr (by simp [h4])

theorem pairwise_insertPair (p : Nat × List Char) :
    ∀ (l : List (Nat × List Char)), l.Pairwise (fun a b => a.1 ≤ b.1) →
    (insertPair p l).Pairwise (fun a b => a.1 ≤ b.1) := by
  intro l
  induction l with
  | nil =>
    intro _
    simp [insertPair]
  | cons q rest ih =>
    intro h
    rw [List.pairwise_cons] at h
    rw [insertPair]
    split
    · rename_i hle
      rw [List.pairwise_cons]
      refine ⟨?_, List.Pairwise.cons h.1 h.2⟩
      intro x hx
      rcases List.mem_cons.mp hx with h1 | h2
      · rw [h1]; exact hle
      · exact Nat.le_trans hle (h.1 x h2)
    · rename_i hgt
      rw [List.pairwise_cons]
      refine ⟨?_, ih h.2⟩
      intro x hx
      rcases mem_insertPair hx with h1 | h2
      · rw [h1]; exact Nat.le_of_not_le hgt
      · exact h.1 x h2

theorem sortPairs_sorted : ∀ (d : Dir), (sortPairs d).Pairwise (fun a b => a.1 ≤ b.1) := by
  intro d
  induction d with
  | nil => simp [sortPairs]
  | cons p rest ih =>
    rw [sortPairs]
    exact pairwise_insertPair p _ ih

theorem seg_new_shape {ex : Bool} {i : Nat} {d : List Char} {s : Seg}
    (h : Seg.new ex i d = .ok s) : s.id = i ∧ ∃ fSt, s.file = some fSt := by
  rw [Seg.new] at h
  split at h
  · cases h
  · cases hb : build_index d with
    | error e => rw [hb, segOfIndex] at h; cases h
    | ok idx =>
      rw [hb, segOfIndex] at h
      cases h
      exact ⟨rfl, ⟨_, rfl⟩⟩

theorem buildImmutables_ids : ∀ (ps : List (Nat × List Char)) (ss : List Seg),
    buildImmutables ps = .ok ss → ss.map Seg.id = ps.map Prod.fst := by
  intro ps
  induction ps with
  | nil =>
    intro ss h
    rw [buildImmutables] at h
    cases h
    rfl
  | cons p rest ih =>
    intro ss h
    rw [buildImmutables] at h
    cases hs : Seg.new true p.1 p.2 with
    | error e => rw [hs] at h; cases h
    | ok s =>
      rw [hs] at h
      cases hr : buildImmutables rest with
      | error e => rw [hr] at h; cases h
      | ok ss0 =>
        rw [hr] at h
        cases h
        rw [List.map_cons, List.map_cons, ih ss0 hr, (seg_new_shape hs).1]

theorem openStore_opened_sorted (d : Dir) (st : LogFiles)
    (h : openStore (some d) = .opened st) :
    (st.immutables.map Seg.id).Pairwise (fun a b => a ≤ b) := by
  simp only [openStore, get_file_paths] at h
  cases hlast : (sortPairs d).getLast? with
  | none =>
    simp only [hlast] at h
    cases hn : Seg.new true 0 [] with
    | error e => rw [hn] at h; cases h
    | ok m =>
      rw [hn] at h
      cases h
      exact List.Pairwise.nil
  | some last =>
    simp only [hlast] at h
    cases hn : Seg.new true last.1 last.2 with
    | error e => rw [hn] at h; cases h
    | ok m =>
      rw [hn] at h
      cases hb : buildImmutables (sortPairs d).dropLast with
      | error e => rw [hb] at h; cases h
      | ok imuts =>
        rw [hb] at h
        cases h
        rw [buildImmutables_ids _ _ hb]
        refine (List.pairwise_map).mpr ?_
        exact List.Pairwise.sublist (List.dropLast_sublist _) (sortPairs_sorted d)

/-! ## No reachable segment detaches its file (claim C10) -/

theorem scanCons_ne (line : List Char) (pr : Except SegError (List (List Char)) × Nat)
    (h : pr.1 ≠ .error .emptyFile) : (scanCons line pr).1 ≠ .error .emptyFile := by
  rcases pr with ⟨res, pfin⟩
  cases res with
  | ok lines => simp [scanCons]
  | error e =>
    simp only [scanCons]
    simpa using h

theorem scanGo_ne_emptyFile (data : List Char) : ∀ (idx : Index) (pos : Nat),
    (scanGo data idx pos).1 ≠ .error .emptyFile := by
  intro idx
  induction idx with
  | nil =>
    intro pos
    simp [scanGo]
  | cons p rest ih =>
    intro pos
    rw [scanGo]
    split
    · simp
    · exact scanCons_ne _ _ (ih _)

theorem segReach_file : ∀ {s : Seg}, SegReach s → ∃ f, s.file = some f := by
  intro s h
  induction h with
  | new ex i d s hnew => exact (seg_new_shape hnew).2
  | set s k v s' _ hset ih =>
    obtain ⟨f, hf⟩ := ih
    simp only [Seg.set, hf] at hset
    cases hset
    exact ⟨_, rfl⟩
  | rm s k s' _ hrm ih =>
    obtain ⟨f, hf⟩ := ih
    simp only [Seg.remove, hf] at hrm
    cases hl : idxLookup s.index k with
    | none => rw [hl] at hrm; cases hrm
    | some e =>
      rw [hl] at hrm
      cases e with
      | Exist o =>
        cases hrm
        exact ⟨_, rfl⟩
      | Removed o => cases hrm
  | got s k _ ih =>
    obtain ⟨f, hf⟩ := ih
    simp only [Seg.get, hf]
    split
    · exact ⟨f, hf⟩
    · exact ⟨f, hf⟩
    · split
      · exact ⟨_, rfl⟩
      · split
        · exact ⟨_, rfl⟩
        · split
          · exact ⟨_, rfl⟩
          · exact ⟨_, rfl⟩
  | scanned s _ ih =>
    obtain ⟨f, hf⟩ := ih
    simp only [Seg.scan, hf]
    rcases hsg : scanGo f.data s.index f.pos with ⟨res, pfin⟩
    exact ⟨_, rfl⟩

/-! # Claim theorems -/

theorem segOr_ok (d s : Seg) : segOr d (.ok s) = s := rfl

theorem dec_lineAt_one (it : LogItem) : decodeChars (lineAt (lineOf it) 0) = .ok it := by
  rw [show lineAt (lineOf it) 0 = (readLine (lineOf it ++ [])).1 by rw [List.append_nil]; rfl,
    readLine_lineOf]
  exact decode_lineOf it

/-- C1: the spec's recovery-equivalence claim fails in the code.  Opening a
fresh directory, applying `set a 1`, closing, reopening and applying
`set b 2` through the engine yields a store whose `get b` answers
`some "1"`; closing and reopening that directory yields a store whose
`get b` answers `some "2"`.  The reopened store disagrees with the store
it was recovered from, refuting the claim. -/
theorem c1_recovery_divergence :
    openStore (some []) = .opened c1st0
  ∧ openStore (some (closeStore c1st1)) = .opened c1stA
  ∧ openStore (some (closeStore c1stB)) = .opened c1stC
  ∧ KvStore.get c1stB "b" = .ok (some "1")
  ∧ KvStore.get c1stC "b" = .ok (some "2")
  ∧ KvStore.get c1stB "b" ≠ KvStore.get c1stC "b" := by
  have hgB : KvStore.get c1stB "b" = .ok (some "1") := by
    rw [c1stB_eq, kvget_of_find _ _ _ (findTarget_mut _ _ (by decide))]
    exact getAns_some (by decide) (by decide) dec_lineAt_AB_0 rfl
  have hgC : KvStore.get c1stC "b" = .ok (some "2") := by
    rw [c1stC_eq, kvget_of_find _ _ _ (findTarget_mut _ _ (by decide))]
    exact getAns_some (by decide) (by decide) dec_lineAt_AB_36 rfl
  refine ⟨?_, ?_, ?_, hgB, hgC, ?_⟩
  · rw [c1st0_eq]
    exact openStore_empty
  · rw [c1st1_eq, c1stA_eq,
      show closeStore ⟨⟨0, [("a", .Exist 0)], some ⟨lineA, 36⟩⟩, [], 1⟩ = [(0, lineA)] from rfl]
    exact openStore_single 0 lineA _ (seg_new_ok bi_A)
  · rw [c1stB_eq, c1stC_eq,
      show closeStore ⟨⟨0, [("a", .Exist 0), ("b", .Exist 0)], some ⟨lineA ++ lineB, 72⟩⟩, [], 1⟩
        = [(0, lineA ++ lineB)] from rfl]
    exact openStore_single 0 (lineA ++ lineB) _ (seg_new_ok bi_AB)
  · rw [hgB, hgC]
    intro hh
    exact absurd (Option.some.inj (Except.ok.inj hh)) (by decide)

/-- C2: the append-protocol claim fails in the code.  Reopening a segment
on a file that already holds one record leaves the read+append handle's
stream position at 0, so the next `set` captures `p = 0` and indexes
`Exist 0`, while the appended record actually begins at byte 36 (the
length of the first record's line): the record decoded at offset 0 is
the first record, whose key is not the one just written. -/
theorem c2_append_position_mismatch :
    Seg.new true 0 lineA = .ok c2s0
  ∧ Seg.set c2s0 "b" "2" = .ok c2s1
  ∧ idxLookup c2s1.index "b" = some (.Exist 0)
  ∧ segData c2s1 = lineA ++ lineB
  ∧ lineA.length = 36
  ∧ decodeChars (lineAt (segData c2s1) 0) = .ok itemA
  ∧ decodeChars (lineAt (segData c2s1) 36) = .ok itemB
  ∧ itemA.key ≠ "b" := by
  have h0 : Seg.new true 0 lineA = .ok ⟨0, [("a", .Exist 0)], some ⟨lineA, 0⟩⟩ :=
    seg_new_ok bi_A
  have hc0 : c2s0 = ⟨0, [("a", .Exist 0)], some ⟨lineA, 0⟩⟩ := by
    rw [c2s0, h0, segOr_ok]
  have hc1 : c2s1 = ⟨0, [("a", .Exist 0), ("b", .Exist 0)], some ⟨lineA ++ lineB, 72⟩⟩ := by
    rw [c2s1, hc0]
    rfl
  have hsd : segData c2s1 = lineA ++ lineB := by
    rw [hc1]
    rfl
  refine ⟨by rw [hc0]; exact h0, ?_, ?_, hsd, rfl, ?_, ?_, by decide⟩
  · rw [hc0, hc1]
    rfl
  · rw [hc1]
    decide
  · rw [hsd]
    exact dec_lineAt_AB_0
  · rw [hsd]
    exact dec_lineAt_AB_36

/-- C3: replay maps each key to the offset of the last record bearing it,
tagged `Exist` for `set` and `Removed` for `rm`, and fails with
`UnknownCmd` at the first record whose command is recognized by
neither. -/
theorem c3_replay_protocol (rs : List LogItem) :
    ((∀ r ∈ rs, goodCmd r = true) →
      ∃ idx, build_index (renderFile rs) = .ok idx ∧
        ∀ k, idxLookup idx k = (lastFor rs k).map fun q => tagOf q.1 q.2)
  ∧ ∀ r, rs.find? (fun x => !goodCmd x) = some r →
      build_index (renderFile rs) = .error (.unknownCmd r) := by
  constructor
  · intro hg
    refine ⟨foldPs (pairsOf rs) 0 [], build_index_renderFile rs hg, ?_⟩
    intro k
    rw [idxLookup_foldPs, lastPFor_pairsOf]
    unfold lastFor
    cases hlast : ((withOffsets rs 0).filter fun q => q.1.key = k).getLast? with
    | none => rfl
    | some q => rfl
  · intro r hr
    exact buildIndexAux_renderFile_bad rs 0 [] r hr

theorem c3_replay_protocol_witness :
    (∃ idx, build_index (renderFile c3rs) = .ok idx ∧
      ∀ k, idxLookup idx k = (lastFor c3rs k).map fun q => tagOf q.1 q.2)
  ∧ build_index (renderFile c3bad) = .error (.unknownCmd ⟨"get", "a", none⟩) :=
  ⟨(c3_replay_protocol c3rs).1 (by decide),
   (c3_replay_protocol c3bad).2 ⟨"get", "a", none⟩ (by decide)⟩

/-- C4: engine `get` consults the mutable segment first; otherwise the
first immutable segment (oldest first) whose index contains the key
decides the answer alone, segments without the key are skipped, and with
no containing segment the answer is `none`.  Opening a directory lists
the immutables in ascending identifier order, so list order is oldest
first. -/
theorem c4_get_routing (st : LogFiles) (k : String) :
    (contains_key st.mutSeg k = true → KvStore.get st k = Seg.getAns st.mutSeg k)
  ∧ (contains_key st.mutSeg k = false →
      ∀ (pre : List Seg) (t : Seg) (post : List Seg),
        st.immutables = pre ++ t :: post →
        (∀ s ∈ pre, contains_key s k = false) →
        contains_key t k = true →
        KvStore.get st k = Seg.getAns t k)
  ∧ (contains_key st.mutSeg k = false →
      (∀ s ∈ st.immutables, contains_key s k = false) →
      KvStore.get st k = .ok none)
  ∧ (∀ (d : Dir) (st' : LogFiles), openStore (some d) = .opened st' →
      (st'.immutables.map Seg.id).Pairwise (fun a b => a ≤ b)) := by
  refine ⟨?_, ?_, ?_, fun d st' h => openStore_opened_sorted d st' h⟩
  · intro hm
    exact kvget_of_find _ _ _ (findTarget_mut st k hm)
  · intro hm pre t post hsplit hpre ht
    refine kvget_of_find _ _ _ ?_
    rw [findTarget_immut st k hm, hsplit]
    exact find?_first _ pre t post hpre ht
  · intro hm himm
    refine kvget_of_none _ _ ?_
    rw [findTarget_immut st k hm]
    exact List.find?_eq_none.mpr fun x hx => by simp [himm x hx]

theorem c4_get_routing_witness :
    KvStore.get c4st "b" = Seg.getAns c4seg1 "b"
  ∧ Seg.getAns c4seg1 "b" = .ok (some "2")
  ∧ KvStore.get c4st "c" = .ok none := by
  have hM : c4segM = ⟨2, [], some ⟨[], 0⟩⟩ := by
    rw [c4segM, seg_new_empty 2, segOr_ok]
  have h0 : c4seg0 = ⟨0, [("a", .Exist 0)], some ⟨lineA, 0⟩⟩ := by
    rw [c4seg0, seg_new_ok bi_A, segOr_ok]
  have h1 : c4seg1 = ⟨1, [("b", .Exist 0)], some ⟨lineB, 0⟩⟩ := by
    rw [c4seg1, seg_new_ok bi_B, segOr_ok]
  have hmut : contains_key c4st.mutSeg "b" = false := by
    rw [show c4st.mutSeg = c4segM from rfl, hM]
    decide
  have hroute := (c4_get_routing c4st "b").2.1 hmut [c4seg0] c4seg1 [] rfl
    (fun s hs => by
      rw [show s = c4seg0 from by simpa using hs, h0]
      decide)
    (by rw [h1]; decide)
  have hlook1 : idxLookup [("b", IndexEntry.Exist 0)] "b" = some (.Exist 0) := by decide
  have hdec1 : decodeChars (lineAt lineB 0) = .ok itemB := dec_lineAt_one itemB
  have hval : Seg.getAns c4seg1 "b" = .ok (some "2") := by
    rw [h1]
    exact getAns_some hlook1 (by decide) hdec1 rfl
  refine ⟨hroute, hval, ?_⟩
  refine (c4_get_routing c4st "c").2.2.1 ?_ ?_
  · rw [show c4st.mutSeg = c4segM from rfl, hM]
    decide
  · intro s hs
    rw [show c4st.immutables = [c4seg0, c4seg1] from rfl] at hs
    rcases (by simpa using hs : s = c4seg0 ∨ s = c4seg1) with h | h
    · rw [h, h0]; decide
    · rw [h, h1]; decide

/-- C5: a segment tombstones a key exactly when its index maps the key to
`Exist`; removing an absent or already-removed key is a
`RemoveNotExistKey` error, so a second remove of the same key fails; and
engine `remove` acts on the mutable segment only, leaving the immutables
untouched. -/
theorem c5_remove_semantics (s : Seg) (f : FileSt) (k : String) (hf : s.file = some f) :
    ((∃ o, idxLookup s.index k = some (.Exist o)) →
        Seg.remove s k = .ok ⟨s.id, idxInsert k (.Removed f.pos) s.index,
          some ⟨f.data ++ lineOf ⟨"rm", k, none⟩,
                (f.data ++ lineOf ⟨"rm", k, none⟩).length⟩⟩)
  ∧ ((∀ o, idxLookup s.index k ≠ some (.Exist o)) →
        Seg.remove s k = .error (.removeNotExistKey k))
  ∧ (∀ s', Seg.remove s k = .ok s' → Seg.remove s' k = .error (.removeNotExistKey k))
  ∧ (∀ st : LogFiles, st.mutSeg = s →
        (∀ e, Seg.remove s k = .error e → KvStore.remove st k = .error e)
      ∧ (∀ m, Seg.remove s k = .ok m →
          KvStore.remove st k = .ok ⟨m, st.immutables, st.next_id⟩)) := by
  refine ⟨?_, ?_, ?_, ?_⟩
  · rintro ⟨o, ho⟩
    simp only [Seg.remove, hf, ho]
  · intro hno
    simp only [Seg.remove, hf]
  · intro s' hok
    simp only [Seg.remove, hf] at hok
    cases hl : idxLookup s.index k with
    | none => rw [hl] at hok; cases hok
    | some e =>
      rw [hl] at hok
      cases e with
      | Removed o => cases hok
      | Exist o =>
        cases hok
        simp only [Seg.remove, idxLookup_idxInsert_self]
  · intro st hst
    constructor
    · intro e he
      unfold KvStore.remove
      rw [hst, he]
    · intro m hm
      unfold KvStore.remove
      rw [hst, hm]

theorem c5_remove_semantics_witness :
    (∃ s', Seg.remove c5seg "a" = .ok s' ∧ Seg.remove s' "a" = .error (.removeNotExistKey "a"))
  ∧ Seg.remove c5seg "b" = .error (.removeNotExistKey "b")
  ∧ KvStore.remove c5st "b" = .error (.removeNotExistKey "b") := by
  have hseg : c5seg = ⟨0, [("a", .Exist 0)], some ⟨lineA, 0⟩⟩ := by
    rw [c5seg, seg_new_ok bi_A, segOr_ok]
  have h := c5_remove_semantics c5seg ⟨lineA, 0⟩ "a" (by rw [hseg])
  have hb := c5_remove_semantics c5seg ⟨lineA, 0⟩ "b" (by rw [hseg])
  have hrm := h.1 ⟨0, by rw [hseg]; decide⟩
  have hbno : Seg.remove c5seg "b" = .error (.removeNotExistKey "b") :=
    hb.2.1 (fun o hh => by rw [hseg] at hh; simp [idxLookup] at hh)
  exact ⟨⟨_, hrm, h.2.2.1 _ hrm⟩, hbno, (hb.2.2.2 c5st rfl).1 _ hbno⟩

/-- The answer of `get` for a key the index does not contain. -/
theorem getAns_none {i : Nat} {idx : Index} {data : List Char} {p : Nat} {k : String}
    (hlook : idxLookup idx k = none) :
    Seg.getAns ⟨i, idx, some ⟨data, p⟩⟩ k = .ok none := by
  simp only [Seg.getAns, Seg.get, hlook]

/-- C6: the compaction value-preservation claim fails in the code.  The
segment reached by reopening on a one-record file and then appending
`set b 2` — the state a demoted mutable carries into compaction, and the
same state claim C2 exhibits — reports `b` as `Exist` with
`get b = some "1"`; after the compactor's rewrite (scan the indexed
lines, rewrite the file, rebuild by replay) the key `b` is gone from the
index entirely and `get b` answers `none`, both at the segment level
(`compactRewrite`) and through the compactor entry point (`compact`).
The index entry `Exist 0` points at the record of `a`, so the scan
writes `a`'s line twice and `b`'s record is lost. -/
theorem c6_compaction_drops_key :
    Seg.new true 0 lineA = .ok c2s0
  ∧ Seg.set c2s0 "b" "2" = .ok c2s1
  ∧ idxLookup c2s1.index "b" = some (.Exist 0)
  ∧ Seg.getAns c2s1 "b" = .ok (some "1")
  ∧ (∃ s', compactRewrite c2s1 = .ok s'
      ∧ idxLookup s'.index "b" = none
      ∧ Seg.getAns s' "b" = .ok none)
  ∧ ∃ st', compact ⟨c2s1, [], 1⟩ = .ok st'
      ∧ KvStore.get ⟨c2s1, [], 1⟩ "b" = .ok (some "1")
      ∧ KvStore.get st' "b" = .ok none := by
  have h0 : Seg.new true 0 lineA = .ok ⟨0, [("a", .Exist 0)], some ⟨lineA, 0⟩⟩ :=
    seg_new_ok bi_A
  have hc0 : c2s0 = ⟨0, [("a", .Exist 0)], some ⟨lineA, 0⟩⟩ := by
    rw [c2s0, h0, segOr_ok]
  have hc1 : c2s1 = ⟨0, [("a", .Exist 0), ("b", .Exist 0)], some ⟨lineA ++ lineB, 72⟩⟩ := by
    rw [c2s1, hc0]
    rfl
  have hlookb : idxLookup [("a", IndexEntry.Exist 0), ("b", IndexEntry.Exist 0)] "b"
      = some (.Exist 0) := by decide
  have hgans1 : Seg.getAns c2s1 "b" = .ok (some "1") := by
    rw [hc1]
    exact getAns_some hlookb (by decide) dec_lineAt_AB_0 rfl
  have hline : lineAt (lineA ++ lineB) 0 = lineA := by
    rw [show lineAt (lineA ++ lineB) 0 = (readLine (lineOf itemA ++ lineB)).1 from rfl,
      readLine_lineOf]
    rfl
  have hscan2 : (Seg.scan (⟨0, [("a", .Exist 0), ("b", .Exist 0)],
      some ⟨lineA ++ lineB, 72⟩⟩ : Seg)).1
      = .ok [lineAt (lineA ++ lineB) 0, lineAt (lineA ++ lineB) 0] :=
    @seg_scan_ok 0 [("a", .Exist 0), ("b", .Exist 0)] (lineA ++ lineB) 72 (by decide)
  rw [hline] at hscan2
  have hbi2 : build_index ([lineA, lineA] : List (List Char)).flatten
      = .ok [("a", .Exist 36)] := by
    rw [show ([lineA, lineA] : List (List Char)).flatten = renderFile [itemA, itemA] by
        simp [renderFile, lineA],
      build_index_renderFile _ (by decide)]
    rfl
  have hcr : compactRewrite ⟨0, [("a", .Exist 0), ("b", .Exist 0)], some ⟨lineA ++ lineB, 72⟩⟩
      = .ok ⟨0, [("a", .Exist 36)], some ⟨([lineA, lineA] : List (List Char)).flatten, 0⟩⟩ := by
    simp only [compactRewrite, hscan2]
    exact seg_new_ok hbi2
  have hganspost : Seg.getAns (⟨0, [("a", .Exist 36)],
      some ⟨([lineA, lineA] : List (List Char)).flatten, 0⟩⟩ : Seg) "b" = .ok none :=
    getAns_none (by decide)
  have hcompact : compact ⟨c2s1, [], 1⟩
      = .ok ⟨⟨1, [], some ⟨[], 0⟩⟩,
        [⟨0, [("a", .Exist 36)], some ⟨([lineA, lineA] : List (List Char)).flatten, 0⟩⟩], 2⟩ := by
    rw [hc1]
    simp only [compact, seg_new_empty, List.nil_append, List.getLast?_singleton,
      List.dropLast_single, hcr]
  have hgetpre : KvStore.get ⟨c2s1, [], 1⟩ "b" = .ok (some "1") := by
    rw [kvget_of_find _ _ _ (findTarget_mut _ _ (by
      rw [show (⟨c2s1, [], 1⟩ : LogFiles).mutSeg = c2s1 from rfl, hc1]
      decide))]
    exact hgans1
  have hgetpost : KvStore.get ⟨⟨1, [], some ⟨[], 0⟩⟩,
      [⟨0, [("a", .Exist 36)], some ⟨([lineA, lineA] : List (List Char)).flatten, 0⟩⟩], 2⟩ "b"
      = .ok none := by
    refine kvget_of_none _ _ ?_
    rw [findTarget_immut _ _ (by decide)]
    refine List.find?_eq_none.mpr ?_
    intro x hx
    rw [show x = (⟨0, [("a", IndexEntry.Exist 36)],
        some ⟨([lineA, lineA] : List (List Char)).flatten, 0⟩⟩ : Seg) from by simpa using hx]
    decide
  refine ⟨by rw [hc0]; exact h0, by rw [hc0, hc1]; rfl, by rw [hc1]; exact hlookb, hgans1,
    ⟨⟨0, [("a", .Exist 36)], some ⟨([lineA, lineA] : List (List Char)).flatten, 0⟩⟩,
      by rw [hc1]; exact hcr, by decide, hganspost⟩,
    ⟨⟨⟨1, [], some ⟨[], 0⟩⟩,
        [⟨0, [("a", .Exist 36)], some ⟨([lineA, lineA] : List (List Char)).flatten, 0⟩⟩], 2⟩,
      hcompact, hgetpre, hgetpost⟩⟩

/-- C7: decoding the encoding of any record returns the record; the
claim's premise that the record's strings embed no newline is not even
needed, since the encoder escapes every control character. -/
theorem c7_codec_round_trip (r : LogItem)
    (h : noNl r.cmd.data ∧ noNl r.key.data ∧ ∀ v, r.value = some v → noNl v.data) :
    decodeChars (encodeChars r) = .ok r :=
  decode_encode r

theorem c7_codec_round_trip_witness :
    (noNl itemA.cmd.data ∧ noNl itemA.key.data ∧ ∀ v, itemA.value = some v → noNl v.data)
  ∧ decodeChars (encodeChars itemA) = .ok itemA := by
  have h : noNl itemA.cmd.data ∧ noNl itemA.key.data
      ∧ ∀ v, itemA.value = some v → noNl v.data := by
    refine ⟨?_, ?_, ?_⟩
    · show ('\n' : Char) ∉ itemA.cmd.data
      decide
    · show ('\n' : Char) ∉ itemA.key.data
      decide
    · intro v hv
      cases hv
      show ('\n' : Char) ∉ ("1" : String).data
      decide
  exact ⟨h, c7_codec_round_trip itemA h⟩

/-- C8 (amended): decode fails exactly on malformed JSON and on missing or
wrongly-typed required fields; it does not inspect the command, so every
record round-trips regardless of its `cmd`, and the `UnknownCmd`
rejection happens only later, at replay. -/
theorem c8_decode_rejection_amended :
    (∀ it : LogItem, decodeChars (encodeChars it) = .ok it)
  ∧ decodeStr "xyz" = .error .fail
  ∧ decodeStr "\x7b\x7d" = .error .fail
  ∧ decodeStr "\x7b\"cmd\":\"set\",\x7d" = .error .fail
  ∧ decodeStr "\x7b\"cmd\":\"set\"\x7d" = .error .fail
  ∧ decodeStr "\x7b\"cmd\":1,\"key\":\"k\"\x7d" = .error .fail
  ∧ build_index (renderFile c3bad) = .error (.unknownCmd ⟨"get", "a", none⟩) := by
  refine ⟨decode_encode, ?_, ?_, ?_, ?_, ?_, ?_⟩
  · simp +decide [decodeStr, decodeChars, decodeFinish, skipWs, parseVal, parseJNum,
      takeDigits, isWsC, isDigitC]
  · simp +decide [decodeStr, decodeChars, decodeFinish, skipWs, parseVal, parseObjBody,
      isWsC, itemFromJson, collectFields]
  · simp +decide [decodeStr, decodeChars, decodeFinish, skipWs, parseVal, parseObjBody,
      parseMembers, parseMemberKey, parseMemberColon, parseMemberVal, parseMemberSep,
      parseJStr, parseEscape, isWsC, itemFromJson, collectFields]
  · simp +decide [decodeStr, decodeChars, decodeFinish, skipWs, parseVal, parseObjBody,
      parseMembers, parseMemberKey, parseMemberColon, parseMemberVal, parseMemberSep,
      parseJStr, parseEscape, isWsC, itemFromJson, collectFields]
  · simp +decide [decodeStr, decodeChars, decodeFinish, skipWs, parseVal, parseObjBody,
      parseMembers, parseMemberKey, parseMemberColon, parseMemberVal, parseMemberSep,
      parseJStr, parseEscape, parseJNum, takeDigits, isWsC, isDigitC, itemFromJson,
      collectFields]
  · exact buildIndexAux_renderFile_bad c3bad 0 [] _ (by decide)

theorem c8_decode_accepts_unknown_cmd :
    decodeStr "\x7b\"cmd\":\"get\",\"key\":\"key1\",\"value\":null\x7d"
      = .ok ⟨"get", "key1", none⟩
  ∧ goodCmd ⟨"get", "key1", none⟩ = false := by
  constructor
  · rw [decodeStr, show String.data "\x7b\"cmd\":\"get\",\"key\":\"key1\",\"value\":null\x7d"
        = encodeChars ⟨"get", "key1", none⟩ from rfl]
    exact decode_encode _
  · decide

/-- C9: opening a nonexistent directory does not return an error value:
the code unwraps the `None` from `get_file_paths` and panics, which is a
third outcome distinct from every `failed` and every `opened` result. -/
theorem c9_open_missing_dir_panics :
    openStore none = .panicked
  ∧ (∀ e : SegError, OpenRes.panicked ≠ OpenRes.failed e)
  ∧ (∀ st : LogFiles, OpenRes.panicked ≠ OpenRes.opened st) := by
  refine ⟨rfl, ?_, ?_⟩
  · intro e h
    cases h
  · intro st h
    cases h

/-- C10: every segment reachable from the public constructor keeps an
attached file through any sequence of `set`, `remove`, `get` and `scan`
calls, so the `EmptyFile` guard in `set`, `remove`, `get`, `scan` and
`len` never fires and `EmptyFile` is never returned. -/
theorem c10_empty_file_unreachable (s : Seg) (h : SegReach s) :
    (∃ f, s.file = some f)
  ∧ (∀ k v, Seg.set s k v ≠ .error .emptyFile)
  ∧ (∀ k, Seg.remove s k ≠ .error .emptyFile)
  ∧ (∀ k, (Seg.get s k).1 ≠ .error .emptyFile)
  ∧ (Seg.scan s).1 ≠ .error .emptyFile
  ∧ Seg.len s ≠ .error .emptyFile := by
  obtain ⟨f, hf⟩ := segReach_file h
  refine ⟨⟨f, hf⟩, ?_, ?_, ?_, ?_, ?_⟩
  · intro k v
    simp [Seg.set, hf]
  · intro k
    simp only [Seg.remove, hf]
    split <;> simp
  · intro k
    simp only [Seg.get, hf]
    split
    · simp
    · simp
    · split
      · simp
      · split
        · simp
        · split <;> simp
  · rcases hsg : scanGo f.data s.index f.pos with ⟨res, pfin⟩
    have hne := scanGo_ne_emptyFile f.data s.index f.pos
    rw [hsg] at hne
    simp only [Seg.scan, hf, hsg]
    simpa using hne
  · simp [Seg.len, hf]

theorem c10_empty_file_witness :
    SegReach c10seg ∧ ∃ f, c10seg.file = some f := by
  have hnew : Seg.new true 0 [] = .ok c10seg := by
    rw [c10seg, seg_new_empty 0, segOr_ok]
  have hr : SegReach c10seg := SegReach.new true 0 [] c10seg hnew
  exact ⟨hr, (c10_empty_file_unreachable c10seg hr).1⟩

end PNA
